import Mathlib

/-!
SPIRVStream.h: the generic word codec of the SPIR-V translator.

A shallow embedding of `lib/SPIRV/libSPIRV/SPIRVStream.h`: the decoder and
encoder records, `decodeBinary`, `skipcomment`, and the generic `operator>>`
and `operator<<` templates for scalars, pointers, ranges, vectors and
optionals.

The C++ streams are modelled by state passing.  An input stream is the list
of characters not yet extracted together with its three `iostate` bits; an
output stream is the list of characters written so far together with the
same bits.  The stream member functions used by the header (`peek`, `get`,
`ignore`, `read`, formatted extraction of an `unsigned int`, `write`,
formatted insertion) follow the C++ standard library (classic "C" locale,
default format flags).
-/

namespace SPIRV

/-! ## Platform -/

/-- A `char` of the stream: one byte. -/
abbrev Byte := Fin 256

/-- What the header leaves to the host: the byte order of a `uint32_t` in
memory (`reinterpret_cast<char *>(&W)`) and whether plain `char` is signed
(`char C = IS.peek()`). -/
structure Host where
  bigEndian : Bool
  charSigned : Bool
  deriving DecidableEq, Repr

/-- The value `traits_type::eof()`. -/
def EOF : Int := -1

/-- The characters `'\n'`, `';'`, `' '`, `'+'`, `'-'`. -/
def chNL : Byte := 10
def chSemi : Byte := 59
def chSpace : Byte := 32
def chPlus : Byte := 43
def chMinus : Byte := 45

/-- `std::isspace` in the "C" locale, on a character of the stream. -/
def isSpaceByte (b : Byte) : Bool :=
  b.val == 32 || (9 ≤ b.val && b.val ≤ 13)

/-- `std::isspace(int)` in the "C" locale: space, `\t`, `\n`, `\v`, `\f`, `\r`;
false for `EOF` and for every other value. -/
def isspace (c : Int) : Bool :=
  c == 32 || (9 ≤ c && c ≤ 13)

/-- `std::char_traits<char>::not_eof(e)`: `e` itself unless `e` is `eof()`, and
then a value other than `eof()` (zero). -/
def not_eof (e : Int) : Int :=
  if e = EOF then 0 else e

/-- Conversion of an `int_type` to plain `char`, then back to `int` where the
header uses `C`: the value modulo 256, read as signed on a host whose `char`
is signed. -/
def toChar (h : Host) (i : Int) : Int :=
  if h.charSigned then (i + 128) % 256 - 128 else i % 256

/-- A decimal digit of the "C" locale. -/
def isDigitByte (b : Byte) : Bool :=
  48 ≤ b.val && b.val ≤ 57

/-- The character of the decimal digit `d % 10`. -/
def digitChar (d : Nat) : Byte :=
  ⟨48 + d % 10, by omega⟩

/-- The characters of a string literal, as stream bytes. -/
def bytesOf (s : String) : List Byte :=
  s.toList.map (fun c => Fin.ofNat c.toNat)

/-! ## Memory image of a `uint32_t` -/

/-- The four bytes of the object representation of the word `W % 2^32`. -/
def wordToBytes (h : Host) (W : Nat) : List Byte :=
  let b0 : Byte := ⟨W % 256, Nat.mod_lt _ (by decide)⟩
  let b1 : Byte := ⟨W / 256 % 256, Nat.mod_lt _ (by decide)⟩
  let b2 : Byte := ⟨W / 65536 % 256, Nat.mod_lt _ (by decide)⟩
  let b3 : Byte := ⟨W / 16777216 % 256, Nat.mod_lt _ (by decide)⟩
  if h.bigEndian then [b3, b2, b1, b0] else [b0, b1, b2, b3]

/-- The word whose object representation is the first four bytes of `bs`
(missing bytes count as zero; `decodeBinary` always passes four). -/
def bytesToWord (h : Host) (bs : List Byte) : Nat :=
  let b (i : Nat) : Nat := (bs.getD i 0).val
  if h.bigEndian then b 3 + 256 * b 2 + 65536 * b 1 + 16777216 * b 0
  else b 0 + 256 * b 1 + 65536 * b 2 + 16777216 * b 3

/-- `static_cast<T>(W)` for an unsigned integer type `T` of `bits` bits. -/
def castTo (bits : Nat) (W : Nat) : Nat :=
  W % 2 ^ bits

/-! ## `std::istream` -/

/-- An input stream: the characters not yet extracted and the state bits. -/
structure IStream where
  buf : List Byte
  eofbit : Bool
  failbit : Bool
  badbit : Bool
  deriving DecidableEq, Repr

namespace IStream

/-- A stream freshly opened on `cs`. -/
def ofBytes (cs : List Byte) : IStream :=
  { buf := cs, eofbit := false, failbit := false, badbit := false }

def good (s : IStream) : Bool := !s.eofbit && !s.failbit && !s.badbit
def eof (s : IStream) : Bool := s.eofbit
def bad (s : IStream) : Bool := s.badbit

/-- `peek()`: the next character without extracting it; `eof()` and `eofbit`
at the end of the input; `eof()` and `failbit` when the stream is not good. -/
def peek (s : IStream) : Int × IStream :=
  if s.good then
    match s.buf with
    | [] => (EOF, { s with eofbit := true })
    | c :: _ => ((c.val : Int), s)
  else (EOF, { s with failbit := true })

/-- `get()`: extracts one character; `eof()` with `eofbit | failbit` at the
end of the input; `eof()` and `failbit` when the stream is not good. -/
def get (s : IStream) : Int × IStream :=
  if s.good then
    match s.buf with
    | [] => (EOF, { s with eofbit := true, failbit := true })
    | c :: cs => ((c.val : Int), { s with buf := cs })
  else (EOF, { s with failbit := true })

/-- The characters after the first `delim` of `cs`, if there is one. -/
def afterDelim (delim : Byte) : List Byte → Option (List Byte)
  | [] => none
  | c :: cs => if c = delim then some cs else afterDelim delim cs

/-- `ignore(numeric_limits<streamsize>::max(), delim)`: extracts and discards
characters up to and including the first `delim`; when the input ends first,
discards everything and sets `eofbit`. -/
def ignore (s : IStream) (delim : Byte) : IStream :=
  if s.good then
    match afterDelim delim s.buf with
    | some rest => { s with buf := rest }
    | none => { s with buf := [], eofbit := true }
  else { s with failbit := true }

/-- `read(p, n)`: extracts `n` characters; when the input ends first, extracts
what there is and sets `eofbit | failbit`; extracts nothing and sets `failbit`
when the stream is not good.  Returns the characters stored through `p`. -/
def read (s : IStream) (n : Nat) : List Byte × IStream :=
  if s.good then
    let got := s.buf.take n
    if got.length = n then (got, { s with buf := s.buf.drop n })
    else (got, { s with buf := s.buf.drop n, eofbit := true, failbit := true })
  else ([], { s with failbit := true })

/-- The value of a run of decimal digits read after the value `acc`. -/
def digitsValue (acc : Nat) (ds : List Byte) : Nat :=
  ds.foldl (fun a d => a * 10 + (d.val - 48)) acc

/-- `operator>>(unsigned int &W)` with the default flags (`skipws`, `dec`).
The sentry fails, leaving `W` untouched, when the stream is not good or the
input ends while white space is skipped.  Otherwise `num_get` reads an
optional sign and the longest run of decimal digits: no digit stores `0` and
sets `failbit`; a value above `UINT_MAX` stores `UINT_MAX` and sets `failbit`;
a `-` negates modulo `2^32`; reaching the end of the input sets `eofbit`
(`setstate` ors the bits into the state).
`W` is passed by reference: the result carries its new value. -/
def extractU32 (s : IStream) (W : Nat) : IStream × Nat :=
  if s.good then
    match s.buf.dropWhile isSpaceByte with
    | [] => ({ s with buf := [], eofbit := true, failbit := true }, W)
    | c :: cs =>
      let signed := c = chMinus ∨ c = chPlus
      let body := if signed then cs else c :: cs
      let ds := body.takeWhile isDigitByte
      let rest := body.dropWhile isDigitByte
      let n := digitsValue 0 ds
      let bad := ds.isEmpty || decide (4294967295 < n)
      let v :=
        if ds.isEmpty then 0
        else if 4294967295 < n then 4294967295
        else if c = chMinus then (4294967296 - n) % 4294967296
        else n
      ({ s with buf := rest, eofbit := s.eofbit || rest.isEmpty,
                failbit := s.failbit || bad }, v)
  else ({ s with failbit := true }, W)

end IStream

/-! ## `std::ostream` -/

/-- An output stream: the characters written so far and the state bits. -/
structure OStream where
  out : List Byte
  eofbit : Bool
  failbit : Bool
  badbit : Bool
  deriving DecidableEq, Repr

namespace OStream

/-- A fresh, empty output stream. -/
def empty : OStream :=
  { out := [], eofbit := false, failbit := false, badbit := false }

def good (s : OStream) : Bool := !s.eofbit && !s.failbit && !s.badbit

/-- Insertion of the characters `bs` (`write(p, n)`, and the character
sequence of a formatted insertion with width 0): appended when the stream is
good; nothing is written and `failbit` is set otherwise. -/
def write (s : OStream) (bs : List Byte) : OStream :=
  if s.good then { s with out := s.out ++ bs } else { s with failbit := true }

/-- The decimal digits of `v`, most significant first, in front of `acc`:
the digit loop of `num_put` (`do { *--p = '0' + v % 10; v /= 10; } while (v)`),
run for at most `fuel` digits. -/
def putDigits : Nat → Nat → List Byte → List Byte
  | 0, _, acc => acc
  | fuel + 1, v, acc =>
    if v / 10 = 0 then digitChar v :: acc
    else putDigits fuel (v / 10) (digitChar v :: acc)

/-- The decimal representation of `v` (`v + 1` digits always suffice). -/
def decimal (v : Nat) : List Byte :=
  putDigits (v + 1) v []

/-- `operator<<(unsigned V)` with the default flags: the decimal digits. -/
def putUnsigned (s : OStream) (v : Nat) : OStream :=
  s.write (decimal v)

end OStream

/-! ## The decoder and the encoder -/

/-- The enumerator `OpNop` of the SPIR-V enumeration `Op`, which is declared
outside this file; its value in the SPIR-V specification is 0. -/
def OpNop : Nat := 0

/-- The class `SPIRVDecoder`.  `IS` and `M` are references in the source; the
module and entry classes are declared in headers outside this file and are
type parameters here.  `Scope` is a pointer to a function or basic block,
`none` for `NULL`. -/
structure SPIRVDecoder (Module Entry : Type) where
  IS : IStream
  M : Module
  WordCount : Nat
  OpCode : Nat
  Scope : Option Entry

/-- The constructor `SPIRVDecoder(std::istream &, SPIRVModule &)`. -/
def SPIRVDecoder.new {Module Entry : Type} (InputStream : IStream) (M : Module) :
    SPIRVDecoder Module Entry :=
  { IS := InputStream, M := M, WordCount := 0, OpCode := OpNop, Scope := none }

/-- The class `SPIRVEncoder`. -/
structure SPIRVEncoder where
  OS : OStream
  deriving DecidableEq, Repr

section Codec

variable {Module Entry : Type}

/-- The template `decodeBinary`: `read` fills the object representation of the
uninitialised local `W`, whose indeterminate content is `junk`, and the result
is `static_cast<T>(W)` for the unsigned type `T` of `bits` bits.  Returns the
decoder and the new value of `V`. -/
def decodeBinary (h : Host) (bits : Nat) (junk : Nat) (I : SPIRVDecoder Module Entry) :
    SPIRVDecoder Module Entry × Nat :=
  let (got, IS1) := I.IS.read 4
  let W := bytesToWord h (got ++ (wordToBytes h junk).drop got.length)
  ({ I with IS := IS1 }, castTo bits W)

/-- The inner loop of `skipcomment`,
`while (not_eof(C) && isspace(C)) { IS.get(); C = IS.peek(); }`,
on the loop state `(IS, C)`, for at most `fuel` iterations. -/
def skipSpaces (h : Host) : Nat → IStream → Int → IStream × Int
  | 0, IS, C => (IS, C)
  | fuel + 1, IS, C =>
    if not_eof C ≠ 0 ∧ isspace C = true then
      let IS1 := IS.get.2
      let p := IS1.peek
      skipSpaces h fuel p.2 (toChar h p.1)
    else (IS, C)

/-- The outer loop of `skipcomment`,
`while (not_eof(C) && C == ';') { IS.ignore(max, '\n'); C = IS.peek(); <inner loop> }`,
for at most `fuel` iterations.  The inner loop runs with one more iteration
than there are characters left, which is always enough. -/
def skipLines (h : Host) : Nat → IStream → Int → IStream × Int
  | 0, IS, C => (IS, C)
  | fuel + 1, IS, C =>
    if not_eof C ≠ 0 ∧ C = (chSemi.val : Int) then
      let IS1 := IS.ignore chNL
      let p := IS1.peek
      let q := skipSpaces h (p.2.buf.length + 1) p.2 (toChar h p.1)
      skipLines h fuel q.1 q.2
    else (IS, C)

/-- The function `skipcomment`: skips white space and `;` comments.  Every
iteration of either loop extracts at least one character or is the last, so
one more iteration than there are characters left is always enough. -/
def skipcomment (h : Host) (IS : IStream) : IStream :=
  if IS.eof || IS.bad then IS
  else
    let p := IS.peek
    let q := skipSpaces h (p.2.buf.length + 1) p.2 (toChar h p.1)
    (skipLines h (q.1.buf.length + 1) q.1 q.2).1

/-- The generic `operator>>(const SPIRVDecoder &, T &)`.  `text` is the global
`SPIRVUseTextFormat`; `junk` is the indeterminate content of the uninitialised
local `W`.  Returns the decoder and the new value of `V`. -/
def decode (text : Bool) (h : Host) (bits : Nat) (junk : Nat)
    (I : SPIRVDecoder Module Entry) : SPIRVDecoder Module Entry × Nat :=
  if text then
    let r := (skipcomment h I.IS).extractU32 junk
    ({ I with IS := r.1 }, castTo bits r.2)
  else decodeBinary h bits junk I

/-- The loop of `operator>>(const SPIRVDecoder &, std::vector<T> &)`, with `n`
iterations to go before `J` reaches `E = V.size()`.  `junk J` is the
indeterminate content of `W` in the call that decodes `V[J]`. -/
def decodeVecLoop (text : Bool) (h : Host) (bits : Nat) (junk : Nat → Nat) :
    Nat → Nat → SPIRVDecoder Module Entry → List Nat → SPIRVDecoder Module Entry × List Nat
  | 0, _, I, V => (I, V)
  | n + 1, J, I, V =>
    let r := decode text h bits (junk J) I
    decodeVecLoop text h bits junk n (J + 1) r.1 (V.set J r.2)

/-- The template `operator>>(const SPIRVDecoder &, std::vector<T> &)`:
`for (size_t J = 0, E = V.size(); J != E; ++J) I >> V[J];`. -/
def decodeVec (text : Bool) (h : Host) (bits : Nat) (junk : Nat → Nat)
    (I : SPIRVDecoder Module Entry) (V : List Nat) : SPIRVDecoder Module Entry × List Nat :=
  decodeVecLoop text h bits junk V.length 0 I V

/-- The template `operator>>(const SPIRVDecoder &, std::optional<T> &)`:
`if (V) I >> V.value();`. -/
def decodeOpt (text : Bool) (h : Host) (bits : Nat) (junk : Nat)
    (I : SPIRVDecoder Module Entry) (V : Option Nat) : SPIRVDecoder Module Entry × Option Nat :=
  match V with
  | some _ =>
    let r := decode text h bits junk I
    (r.1, some r.2)
  | none => (I, none)

/-- The generic `operator<<(const SPIRVEncoder &, T V)` for an unsigned integer
`V`: in text mode the decimal digits and a space (two insertions); in binary
mode the object representation of `static_cast<uint32_t>(V)`. -/
def encode (text : Bool) (h : Host) (O : SPIRVEncoder) (V : Nat) : SPIRVEncoder :=
  if text then { O with OS := (O.OS.putUnsigned V).write [chSpace] }
  else
    let W := castTo 32 V
    { O with OS := O.OS.write (wordToBytes h W) }

/-- The loop of `operator<<(const SPIRVEncoder &, const std::vector<T> &)`,
with `n` iterations to go before `I` reaches `E = V.size()`. -/
def encodeVecLoop (text : Bool) (h : Host) :
    Nat → Nat → SPIRVEncoder → List Nat → SPIRVEncoder
  | 0, _, O, _ => O
  | n + 1, I, O, V => encodeVecLoop text h n (I + 1) (encode text h O (V.getD I 0)) V

/-- The template `operator<<(const SPIRVEncoder &, const std::vector<T> &)`:
`for (size_t I = 0, E = V.size(); I != E; ++I) O << V[I];`. -/
def encodeVec (text : Bool) (h : Host) (O : SPIRVEncoder) (V : List Nat) : SPIRVEncoder :=
  encodeVecLoop text h V.length 0 O V

/-- The template `operator<<(const SPIRVEncoder &, const std::optional<T> &)`:
`if (V) O << V.value();`. -/
def encodeOpt (text : Bool) (h : Host) (O : SPIRVEncoder) (V : Option Nat) : SPIRVEncoder :=
  match V with
  | some v => encode text h O v
  | none => O

/-- The template `operator>>(const SPIRVDecoder &, T *&P)`:
`SPIRVId Id; I >> Id; P = static_cast<T *>(I.M.getEntry(Id));`.
`getEntry` is the lookup of the module class, which is declared outside this
file: a parameter here, a pure function of the module and the id whose result
`none` stands for a null pointer.  Returns the decoder and the new value of
`P`. -/
def decodePtr (getEntry : Module → Nat → Option Entry) (text : Bool) (h : Host)
    (junk : Nat) (I : SPIRVDecoder Module Entry) : SPIRVDecoder Module Entry × Option Entry :=
  let r := decode text h 32 junk I
  (r.1, getEntry I.M r.2)

/-- The loop of `operator>>(const SPIRVDecoder &, const std::pair<IterTy, IterTy> &)`,
`for (IterTy I = Range.first, E = Range.second; I != E; ++I) Decoder >> *I;`,
for at most `fuel` tests of `I != E`.  The iterators are positions in the
container `V`, and `junk I` is the indeterminate content of `W` in the call
that decodes `*I`. -/
def decodeRangeLoop (text : Bool) (h : Host) (bits : Nat) (junk : Nat → Nat) :
    Nat → Nat → Nat → SPIRVDecoder Module Entry → List Nat →
      SPIRVDecoder Module Entry × List Nat
  | 0, _, _, Decoder, V => (Decoder, V)
  | fuel + 1, I, E, Decoder, V =>
    if I ≠ E then
      let r := decode text h bits (junk I) Decoder
      decodeRangeLoop text h bits junk fuel (I + 1) E r.1 (V.set I r.2)
    else (Decoder, V)

/-- The template `operator>>(const SPIRVDecoder &, const std::pair<IterTy, IterTy> &)`
on the range `[first, second)` of positions of `V`.  The range is valid
(`first ≤ second ≤ V.size()`), as C++ requires of the caller; the loop then
tests `I != E` exactly `second - first + 1` times. -/
def decodeRange (text : Bool) (h : Host) (bits : Nat) (junk : Nat → Nat)
    (Decoder : SPIRVDecoder Module Entry) (V : List Nat) (first second : Nat) :
    SPIRVDecoder Module Entry × List Nat :=
  decodeRangeLoop text h bits junk (second - first + 1) first second Decoder V

/-- The template `operator<<(const SPIRVEncoder &, T *P)`: `O << P->getId()`.
`getId` is a member of the entry class, which is declared outside this file:
a parameter here.  `P` is the entry pointed to. -/
def encodePtr (getId : Entry → Nat) (text : Bool) (h : Host) (O : SPIRVEncoder)
    (P : Entry) : SPIRVEncoder :=
  encode text h O (getId P)

/-- The loop of `operator<<(const SPIRVEncoder &, const std::pair<IterTy, IterTy> &)`,
`for (IterTy I = Range.first, E = Range.second; I != E; ++I) Encoder << *I;`,
for at most `fuel` tests of `I != E`. -/
def encodeRangeLoop (text : Bool) (h : Host) :
    Nat → Nat → Nat → SPIRVEncoder → List Nat → SPIRVEncoder
  | 0, _, _, Encoder, _ => Encoder
  | fuel + 1, I, E, Encoder, V =>
    if I ≠ E then encodeRangeLoop text h fuel (I + 1) E (encode text h Encoder (V.getD I 0)) V
    else Encoder

/-- The template `operator<<(const SPIRVEncoder &, const std::pair<IterTy, IterTy> &)`
on the valid range `[first, second)` of positions of `V`. -/
def encodeRange (text : Bool) (h : Host) (Encoder : SPIRVEncoder) (V : List Nat)
    (first second : Nat) : SPIRVEncoder :=
  encodeRangeLoop text h (second - first + 1) first second Encoder V

end Codec

/-! ## Vocabulary of the statements -/

/-- A run of white space and complete line comments: each element is a white
space character or a `;`, any characters other than `\n`, and the `\n`. -/
inductive Filler : List Byte → Prop
  | nil : Filler []
  | space (c : Byte) (p : List Byte) : isSpaceByte c = true → Filler p → Filler (c :: p)
  | comment (body p : List Byte) : chNL ∉ body → Filler p →
      Filler (chSemi :: (body ++ chNL :: p))

/-- A 32-bit unsigned value. -/
def IsWord (v : Nat) : Prop := v < 4294967296

instance (v : Nat) : Decidable (IsWord v) := by
  unfold IsWord; infer_instance

/-- The decoding of `n` consecutive fields of an unsigned type of `bits` bits
with the generic `operator>>`, in order: `I >> V0 >> V1 >> ...`.  `junk J` is
the indeterminate content of `W` in call number `J`. -/
def decodeWords {Module Entry : Type} (text : Bool) (h : Host) (bits : Nat)
    (junk : Nat → Nat) :
    Nat → Nat → SPIRVDecoder Module Entry → SPIRVDecoder Module Entry × List Nat
  | 0, _, I => (I, [])
  | n + 1, J, I =>
    let r := decode text h bits (junk J) I
    let t := decodeWords text h bits junk n (J + 1) r.1
    (t.1, r.2 :: t.2)

/-- The characters one generic `operator<<` writes for the value `v`. -/
def wordImage (text : Bool) (h : Host) (v : Nat) : List Byte :=
  if text then OStream.decimal v ++ [chSpace] else wordToBytes h (castTo 32 v)

/-- A text of decimal tokens, each written after its separator. -/
def tokenText : List (List Byte × Nat) → List Byte
  | [] => []
  | t :: ts => t.1 ++ OStream.decimal t.2 ++ tokenText ts

/-- The loop state of `skipcomment` right after `C = IS.peek()` on `s`. -/
def peeked (h : Host) (s : IStream) : IStream × Int :=
  (s.peek.2, toChar h s.peek.1)

/-- The states in which `skipcomment` leaves a stream that was good: at the
end of the input with the stream no longer good, or good in front of a
character that is neither white space nor `;`. -/
def Settled (r : IStream) : Prop :=
  (r.good = false ∧ r.buf = []) ∨
    (r.good = true ∧ ∃ c rest, r.buf = c :: rest ∧ isSpaceByte c = false ∧ c ≠ chSemi)

/-- What may follow a decimal token: nothing, or a character that is not a
digit. -/
def EndsToken (tail : List Byte) : Prop :=
  ∀ c ∈ tail.head?, isDigitByte c = false

/-- Whether a number starts at the head of `cs`: after an optional sign, a
decimal digit. -/
def startsNumber : List Byte → Bool
  | [] => false
  | c :: cs =>
    if c = chMinus ∨ c = chPlus then
      match cs with
      | [] => false
      | d :: _ => isDigitByte d
    else isDigitByte c

/-- A little-endian host with signed `char`, and decoders and encoders on
concrete streams, for the examples. -/
def hostLE : Host := { bigEndian := false, charSigned := true }

/-- A decoder freshly constructed on the input `cs`. -/
def decoderOn (cs : List Byte) : SPIRVDecoder Unit Unit :=
  SPIRVDecoder.new (IStream.ofBytes cs) ()

/-- An encoder on a fresh output stream. -/
def encoderNew : SPIRVEncoder := { OS := OStream.empty }

/-- The decoder bookkeeping of `J` is that of `I`: same module, `WordCount`,
`OpCode` and `Scope`. -/
def SameBookkeeping {Module Entry : Type} (I J : SPIRVDecoder Module Entry) : Prop :=
  J.M = I.M ∧ J.WordCount = I.WordCount ∧ J.OpCode = I.OpCode ∧ J.Scope = I.Scope

/-- An example module: a table from ids to entry names. -/
abbrev TableModule := List (Nat × String)

/-- The lookup of the example module: the entry registered under `id`, the
null pointer when there is none. -/
def tableGetEntry (M : TableModule) (id : Nat) : Option String :=
  M.lookup id

/-- A decoder freshly constructed on the input `cs` and the example module
`M`. -/
def tableDecoderOn (cs : List Byte) (M : TableModule) : SPIRVDecoder TableModule String :=
  SPIRVDecoder.new (IStream.ofBytes cs) M

/-! # Lemmas -/

/-! ## Streams: basic facts -/

theorem istream_good_iff (s : IStream) :
    s.good = true ↔ s.eofbit = false ∧ s.failbit = false ∧ s.badbit = false := by
  cases s with
  | mk b e f d => cases e <;> cases f <;> cases d <;> simp [IStream.good]

theorem ostream_good_iff (s : OStream) :
    s.good = true ↔ s.eofbit = false ∧ s.failbit = false ∧ s.badbit = false := by
  cases s with
  | mk b e f d => cases e <;> cases f <;> cases d <;> simp [OStream.good]

theorem ostream_write_good (s : OStream) (bs : List Byte) (hs : s.good = true) :
    s.write bs = { s with out := s.out ++ bs } := by
  simp [OStream.write, hs]

theorem ostream_write_stays_good (s : OStream) (bs : List Byte) (hs : s.good = true) :
    (s.write bs).good = true := by
  rw [ostream_write_good s bs hs]
  simpa [OStream.good] using hs

/-! ## The object representation of a word -/

theorem wordToBytes_length (h : Host) (W : Nat) : (wordToBytes h W).length = 4 := by
  unfold wordToBytes
  cases h.bigEndian <;> simp

theorem bytesToWord_wordToBytes (h : Host) (v : Nat) (hv : v < 4294967296)
    (rest : List Byte) : bytesToWord h (wordToBytes h v ++ rest) = v := by
  unfold wordToBytes bytesToWord
  cases h.bigEndian <;> simp [List.getD] <;> omega

theorem castTo_word (v : Nat) (hv : v < 4294967296) : castTo 32 v = v := by
  unfold castTo
  exact Nat.mod_eq_of_lt (by simpa using hv)

theorem istream_read_append (s : IStream) (bs rest : List Byte) (hs : s.good = true)
    (hb : s.buf = bs ++ rest) :
    s.read bs.length = (bs, { s with buf := rest }) := by
  simp [IStream.read, hs, hb]

/-! ## The loop conditions of `skipcomment` -/

theorem toChar_byte (h : Host) (c : Byte) :
    toChar h (c.val : Int) = if h.charSigned = true ∧ 128 ≤ c.val then (c.val : Int) - 256
      else (c.val : Int) := by
  have hc := c.isLt
  unfold toChar
  cases h.charSigned
  · simp only [Bool.false_eq_true, if_false, false_and]
    omega
  · simp only [if_true, true_and]
    split <;> omega

theorem spaceCond_byte (h : Host) (c : Byte) :
    (not_eof (toChar h (c.val : Int)) ≠ 0 ∧ isspace (toChar h (c.val : Int)) = true)
      ↔ isSpaceByte c = true := by
  have hc := c.isLt
  rw [toChar_byte]
  simp only [not_eof, EOF, isspace, isSpaceByte, Bool.or_eq_true, Bool.and_eq_true,
    beq_iff_eq, decide_eq_true_eq, ne_eq]
  cases h.charSigned
  · simp only [Bool.false_eq_true, false_and, if_false]
    split <;> omega
  · simp only [true_and]
    split <;> split <;> omega

theorem spaceCond_eof (h : Host) :
    ¬ (not_eof (toChar h EOF) ≠ 0 ∧ isspace (toChar h EOF) = true) := by
  cases h with
  | mk b s => cases b <;> cases s <;> decide

theorem semiCond_byte (h : Host) (c : Byte) :
    (not_eof (toChar h (c.val : Int)) ≠ 0 ∧ toChar h (c.val : Int) = (chSemi.val : Int))
      ↔ c = chSemi := by
  have hc := c.isLt
  rw [toChar_byte, Fin.ext_iff]
  simp only [not_eof, EOF, chSemi, ne_eq]
  have : ((59 : Byte).val : Int) = 59 := rfl
  have h2 : ((59 : Byte).val) = 59 := rfl
  rw [this, h2]
  cases h.charSigned
  · simp only [Bool.false_eq_true, false_and, if_false]
    split <;> omega
  · simp only [true_and]
    split <;> split <;> omega

theorem semiCond_eof (h : Host) :
    ¬ (not_eof (toChar h EOF) ≠ 0 ∧ toChar h EOF = (chSemi.val : Int)) := by
  cases h with
  | mk b s => cases b <;> cases s <;> decide

theorem peeked_cons (h : Host) (s : IStream) (c : Byte) (rest : List Byte)
    (hs : s.good = true) (hb : s.buf = c :: rest) :
    peeked h s = (s, toChar h (c.val : Int)) := by
  simp [peeked, IStream.peek, hs, hb]

theorem peeked_nil (h : Host) (s : IStream) (hs : s.good = true) (hb : s.buf = []) :
    peeked h s = ({ s with eofbit := true }, toChar h EOF) := by
  simp [peeked, IStream.peek, hs, hb]

theorem peeked_not_good (h : Host) (s : IStream) (hs : s.good = false) :
    peeked h s = ({ s with failbit := true }, toChar h EOF) := by
  simp [peeked, IStream.peek, hs]

theorem good_with_buf (s : IStream) (cs : List Byte) (hs : s.good = true) :
    ({ s with buf := cs } : IStream).good = true := by
  simpa [IStream.good] using hs

theorem skipSpaces_eof (h : Host) (fuel : Nat) (IS : IStream) :
    skipSpaces h fuel IS (toChar h EOF) = (IS, toChar h EOF) := by
  cases fuel with
  | zero => rfl
  | succ n => simp [skipSpaces, spaceCond_eof h]

theorem skipSpaces_peeked (h : Host) (cs : List Byte) :
    ∀ (fuel : Nat) (s : IStream), s.good = true → s.buf = cs → cs.length < fuel →
      skipSpaces h fuel (peeked h s).1 (peeked h s).2
        = peeked h { s with buf := cs.dropWhile isSpaceByte } := by
  induction cs with
  | nil =>
    intro fuel s hs hb _
    have hs' : s = { s with buf := [] } := by
      cases s; simp_all
    rw [peeked_nil h s hs hb]
    simp only [List.dropWhile_nil]
    rw [skipSpaces_eof, ← hs', peeked_nil h s hs hb]
  | cons c rest ih =>
    intro fuel s hs hb hlen
    obtain ⟨n, rfl⟩ : ∃ n, fuel = n + 1 := ⟨fuel - 1, by simp at hlen; omega⟩
    rw [peeked_cons h s c rest hs hb]
    by_cases hc : isSpaceByte c = true
    · have hcond := (spaceCond_byte h c).2 hc
      have hget : s.get.2 = { s with buf := rest } := by
        simp [IStream.get, hs, hb]
      have hg := good_with_buf s rest hs
      have := ih n { s with buf := rest } hg rfl (by simp at hlen; omega)
      have hstep : skipSpaces h (n + 1) s (toChar h (c.val : Int))
          = skipSpaces h n (peeked h { s with buf := rest }).1
              (peeked h { s with buf := rest }).2 := by
        rw [skipSpaces, if_pos hcond, hget]
        rfl
      rw [hstep, this]
      simp [List.dropWhile_cons, hc]
    · have hcond := mt (spaceCond_byte h c).1 hc
      rw [skipSpaces, if_neg hcond]
      have hs' : s = { s with buf := c :: rest } := by
        cases s; simp_all
      simp only [List.dropWhile_cons, hc, if_false, Bool.false_eq_true]
      rw [← hs', peeked_cons h s c rest hs hb]

theorem peeked_buf (h : Host) (s : IStream) : (peeked h s).1.buf = s.buf := by
  unfold peeked IStream.peek
  split
  · split <;> simp_all
  · rfl

theorem with_buf_self (s : IStream) (cs : List Byte) (hb : s.buf = cs) :
    ({ s with buf := cs } : IStream) = s := by
  cases s; simp_all

theorem afterDelim_suffix (d : Byte) (cs r : List Byte) (hr : IStream.afterDelim d cs = some r) :
    r <:+ cs ∧ r.length < cs.length := by
  induction cs with
  | nil => simp [IStream.afterDelim] at hr
  | cons c t ih =>
    by_cases hc : c = d
    · simp [IStream.afterDelim, hc] at hr
      subst hr
      exact ⟨List.suffix_cons _ _, by simp⟩
    · simp [IStream.afterDelim, hc] at hr
      obtain ⟨h1, h2⟩ := ih hr
      exact ⟨h1.trans (List.suffix_cons _ _), by simp; omega⟩

theorem afterDelim_append (d : Byte) (body x : List Byte) (hb : d ∉ body) :
    IStream.afterDelim d (body ++ d :: x) = some x := by
  induction body with
  | nil => simp [IStream.afterDelim]
  | cons c t ih =>
    have hc : c ≠ d := fun e => hb (by simp [e])
    have ht : d ∉ t := fun e => hb (by simp [e])
    simp [IStream.afterDelim, hc, ih ht]

theorem skipLines_eof (h : Host) (fuel : Nat) (IS : IStream) :
    skipLines h fuel IS (toChar h EOF) = (IS, toChar h EOF) := by
  cases fuel with
  | zero => rfl
  | succ n => rw [skipLines, if_neg (semiCond_eof h)]

theorem skipLines_other (h : Host) (fuel : Nat) (IS : IStream) (c : Byte) (hc : c ≠ chSemi) :
    skipLines h fuel IS (toChar h (c.val : Int)) = (IS, toChar h (c.val : Int)) := by
  cases fuel with
  | zero => rfl
  | succ n => rw [skipLines, if_neg (mt (semiCond_byte h c).1 hc)]

theorem skipLines_semi_some (h : Host) (fuel : Nat) (s : IStream) (rest r : List Byte)
    (hs : s.good = true) (hb : s.buf = chSemi :: rest)
    (hr : IStream.afterDelim chNL rest = some r) :
    skipLines h (fuel + 1) s (toChar h (chSemi.val : Int))
      = skipLines h fuel (peeked h { s with buf := r.dropWhile isSpaceByte }).1
          (peeked h { s with buf := r.dropWhile isSpaceByte }).2 := by
  have hig : s.ignore chNL = { s with buf := r } := by
    have : IStream.afterDelim chNL (chSemi :: rest) = some r := by
      rw [IStream.afterDelim, if_neg (by decide), hr]
    simp [IStream.ignore, hs, hb, this]
  have hg := good_with_buf s r hs
  have hsp := skipSpaces_peeked h r (r.length + 1) { s with buf := r } hg rfl (by omega)
  rw [skipLines, if_pos ((semiCond_byte h chSemi).2 rfl), hig]
  have hpb : ({ s with buf := r } : IStream).peek.2.buf.length = r.length := by
    have := peeked_buf h { s with buf := r }
    simp only [peeked] at this
    rw [this]
  simp only [hpb]
  simp only [peeked] at hsp
  rw [hsp]
  rfl

theorem skipLines_semi_none (h : Host) (fuel : Nat) (s : IStream) (rest : List Byte)
    (hs : s.good = true) (hb : s.buf = chSemi :: rest)
    (hr : IStream.afterDelim chNL rest = none) :
    skipLines h (fuel + 1) s (toChar h (chSemi.val : Int))
      = ({ buf := [], eofbit := true, failbit := true, badbit := false }, toChar h EOF) := by
  obtain ⟨h1, h2, h3⟩ := (istream_good_iff s).1 hs
  have hig : s.ignore chNL = { buf := [], eofbit := true, failbit := false, badbit := false } := by
    have : IStream.afterDelim chNL (chSemi :: rest) = none := by
      rw [IStream.afterDelim, if_neg (by decide), hr]
    simp [IStream.ignore, hs, hb, this, h2, h3]
  rw [skipLines, if_pos ((semiCond_byte h chSemi).2 rfl), hig]
  have hp : ({ buf := [], eofbit := true, failbit := false, badbit := false } : IStream).peek
      = (EOF, { buf := [], eofbit := true, failbit := true, badbit := false }) := rfl
  simp only [hp, skipSpaces_eof, skipLines_eof]

theorem skipcomment_good (h : Host) (s : IStream) (hs : s.good = true) :
    skipcomment h s
      = (skipLines h ((s.buf.dropWhile isSpaceByte).length + 1)
          (peeked h { s with buf := s.buf.dropWhile isSpaceByte }).1
          (peeked h { s with buf := s.buf.dropWhile isSpaceByte }).2).1 := by
  obtain ⟨h1, h2, h3⟩ := (istream_good_iff s).1 hs
  have hsp := skipSpaces_peeked h s.buf (s.buf.length + 1) s hs rfl (by omega)
  have hpb : (peeked h s).1.buf.length = s.buf.length := by rw [peeked_buf]
  have hpb2 := peeked_buf h { s with buf := s.buf.dropWhile isSpaceByte }
  have hne : ¬ ((s.eof || s.bad) = true) := by simp [IStream.eof, IStream.bad, h1, h3]
  rw [skipcomment, if_neg hne]
  show (skipLines h ((skipSpaces h ((peeked h s).1.buf.length + 1) (peeked h s).1
      (peeked h s).2).1.buf.length + 1)
      (skipSpaces h ((peeked h s).1.buf.length + 1) (peeked h s).1 (peeked h s).2).1
      (skipSpaces h ((peeked h s).1.buf.length + 1) (peeked h s).1 (peeked h s).2).2).1 = _
  rw [hpb, hsp, hpb2]

theorem skipLines_settled (h : Host) :
    ∀ (n fuel : Nat) (s : IStream) (cs : List Byte), s.good = true →
      s.buf = cs.dropWhile isSpaceByte → s.buf.length ≤ n → s.buf.length < fuel →
      (skipLines h fuel (peeked h s).1 (peeked h s).2).1.buf <:+ s.buf
        ∧ Settled (skipLines h fuel (peeked h s).1 (peeked h s).2).1 := by
  intro n
  induction n with
  | zero =>
    intro fuel s cs hs _ hn _
    have hb : s.buf = [] := List.length_eq_zero.1 (by omega)
    rw [peeked_nil h s hs hb, skipLines_eof]
    refine ⟨by simp [hb], Or.inl ⟨?_, hb⟩⟩
    simp [IStream.good]
  | succ m ih =>
    intro fuel s cs hs hcs hn hfuel
    cases hb : s.buf with
    | nil =>
      rw [peeked_nil h s hs hb, skipLines_eof]
      refine ⟨by simp [hb], Or.inl ⟨?_, hb⟩⟩
      simp [IStream.good]
    | cons c rest =>
      have hsp : isSpaceByte c = false := by
        have hne : cs.dropWhile isSpaceByte ≠ [] := by rw [← hcs, hb]; simp
        have := List.head_dropWhile_not isSpaceByte cs hne
        have hh : (cs.dropWhile isSpaceByte).head hne = c := by
          have e : cs.dropWhile isSpaceByte = c :: rest := by rw [← hcs, hb]
          simp [e]
        rw [hh] at this
        exact this
      rw [peeked_cons h s c rest hs hb]
      by_cases hc : c = chSemi
      · subst hc
        obtain ⟨f, rfl⟩ : ∃ f, fuel = f + 1 := ⟨fuel - 1, by omega⟩
        rw [hb] at hn hfuel
        simp only [List.length_cons] at hn hfuel
        cases hr : IStream.afterDelim chNL rest with
        | none =>
          rw [skipLines_semi_none h f s rest hs hb hr]
          exact ⟨by simp, Or.inl ⟨rfl, rfl⟩⟩
        | some r =>
          rw [skipLines_semi_some h f s rest r hs hb hr]
          obtain ⟨hsuf, hlt⟩ := afterDelim_suffix chNL rest r hr
          have hdl : (r.dropWhile isSpaceByte).length ≤ r.length :=
            (List.dropWhile_suffix isSpaceByte).length_le
          obtain ⟨i1, i2⟩ := ih f { s with buf := r.dropWhile isSpaceByte } r
            (good_with_buf s _ hs) rfl (by simp only; omega) (by simp only; omega)
          refine ⟨?_, i2⟩
          exact i1.trans (((List.dropWhile_suffix isSpaceByte).trans hsuf).trans
            (List.suffix_cons _ _))
      · rw [skipLines_other h fuel s c hc]
        exact ⟨by simp [hb], Or.inr ⟨hs, c, rest, hb, hsp, hc⟩⟩

theorem skipcomment_settled (h : Host) (s : IStream) (hs : s.good = true) :
    (skipcomment h s).buf <:+ s.buf ∧ Settled (skipcomment h s) := by
  rw [skipcomment_good h s hs]
  obtain ⟨i1, i2⟩ := skipLines_settled h _ ((s.buf.dropWhile isSpaceByte).length + 1)
    { s with buf := s.buf.dropWhile isSpaceByte } s.buf (good_with_buf s _ hs) rfl
    (le_refl _) (by simp only; omega)
  exact ⟨i1.trans (List.dropWhile_suffix isSpaceByte), i2⟩

/-- On a stream that is not good `skipcomment` changes nothing. -/
theorem skipcomment_not_good (h : Host) (s : IStream) (hs : s.good = false) :
    skipcomment h s = s := by
  unfold skipcomment
  split
  · rfl
  · rename_i hne
    simp only [IStream.eof, IStream.bad, Bool.or_eq_true, not_or, Bool.not_eq_true] at hne
    have hf : s.failbit = true := by
      cases s with
      | mk b e f d =>
        simp only at hne
        cases f
        · simp [IStream.good, hne.1, hne.2] at hs
        · rfl
    have hself : ({ s with failbit := true } : IStream) = s := by
      cases s; simp_all
    have hp : peeked h s = (s, toChar h EOF) := by
      rw [peeked_not_good h s hs, hself]
    show (skipLines h ((skipSpaces h ((peeked h s).1.buf.length + 1) (peeked h s).1
      (peeked h s).2).1.buf.length + 1)
      (skipSpaces h ((peeked h s).1.buf.length + 1) (peeked h s).1 (peeked h s).2).1
      (skipSpaces h ((peeked h s).1.buf.length + 1) (peeked h s).1 (peeked h s).2).2).1 = _
    rw [hp, skipSpaces_eof, skipLines_eof]

/-- In front of a character that is neither white space nor `;` a good
stream is left as it is. -/
theorem skipcomment_token (h : Host) (s : IStream) (c : Byte) (rest : List Byte)
    (hs : s.good = true) (hb : s.buf = c :: rest)
    (hsp : isSpaceByte c = false) (hc : c ≠ chSemi) : skipcomment h s = s := by
  have hd : s.buf.dropWhile isSpaceByte = s.buf := by
    rw [hb]; simp [List.dropWhile_cons, hsp]
  rw [skipcomment_good h s hs, hd, with_buf_self s s.buf rfl, peeked_cons h s c rest hs hb,
    skipLines_other h _ s c hc]

theorem skipcomment_stable (h : Host) (r : IStream) (hr : Settled r) : skipcomment h r = r := by
  rcases hr with ⟨hg, _⟩ | ⟨hg, c, rest, hb, hsp, hc⟩
  · exact skipcomment_not_good h r hg
  · exact skipcomment_token h r c rest hg hb hsp hc

theorem skipLines_filler (h : Host) (c : Byte) (rest : List Byte)
    (hsp : isSpaceByte c = false) (hc : c ≠ chSemi) (p : List Byte) (hp : Filler p) :
    ∀ (fuel : Nat) (s : IStream), s.good = true → s.buf = p ++ c :: rest →
      (s.buf.dropWhile isSpaceByte).length < fuel →
      (skipLines h fuel (peeked h { s with buf := s.buf.dropWhile isSpaceByte }).1
        (peeked h { s with buf := s.buf.dropWhile isSpaceByte }).2).1
        = { s with buf := c :: rest } := by
  induction hp with
  | nil =>
    intro fuel s hs hb _
    simp only [List.nil_append] at hb
    have hd : s.buf.dropWhile isSpaceByte = s.buf := by
      rw [hb]; simp [List.dropWhile_cons, hsp]
    rw [hd, with_buf_self s s.buf rfl, peeked_cons h s c rest hs hb,
      skipLines_other h _ s c hc, ← hb, with_buf_self s s.buf rfl]
  | space w q hw _ ih =>
    intro fuel s hs hb hlen
    have hd : s.buf.dropWhile isSpaceByte = (q ++ c :: rest).dropWhile isSpaceByte := by
      rw [hb]; simp [List.dropWhile_cons, hw]
    have := ih fuel { s with buf := q ++ c :: rest } (good_with_buf s _ hs) rfl
      (by rw [hd] at hlen; exact hlen)
    rw [hd]
    exact this
  | comment body q hbody _ ih =>
    intro fuel s hs hb hlen
    have hb' : s.buf = chSemi :: (body ++ chNL :: (q ++ c :: rest)) := by
      rw [hb]; simp
    have hd : s.buf.dropWhile isSpaceByte = s.buf := by
      rw [hb']
      have : isSpaceByte chSemi = false := by decide
      simp [List.dropWhile_cons, this]
    obtain ⟨f, rfl⟩ : ∃ f, fuel = f + 1 := ⟨fuel - 1, by omega⟩
    have hdl : ((q ++ c :: rest).dropWhile isSpaceByte).length ≤ (q ++ c :: rest).length :=
      (List.dropWhile_suffix isSpaceByte).length_le
    have hr := afterDelim_append chNL body (q ++ c :: rest) hbody
    rw [hd, with_buf_self s s.buf rfl, peeked_cons h s chSemi _ hs hb',
      skipLines_semi_some h f s _ _ hs hb' hr]
    have := ih f { s with buf := q ++ c :: rest } (good_with_buf s _ hs) rfl
      (by rw [hd, hb'] at hlen; simp at hlen hdl ⊢; omega)
    exact this

theorem skipcomment_filler (h : Host) (s : IStream) (p : List Byte) (c : Byte)
    (rest : List Byte) (hs : s.good = true) (hb : s.buf = p ++ c :: rest) (hp : Filler p)
    (hsp : isSpaceByte c = false) (hc : c ≠ chSemi) :
    skipcomment h s = { s with buf := c :: rest } := by
  rw [skipcomment_good h s hs]
  exact skipLines_filler h c rest hsp hc p hp _ s hs hb (by omega)

/-! ## Decimal tokens -/

theorem isDigit_digitChar (d : Nat) : isDigitByte (digitChar d) = true := by
  simp only [isDigitByte, digitChar, Bool.and_eq_true, decide_eq_true_eq]
  omega

theorem digitChar_val (d : Nat) : (digitChar d).val - 48 = d % 10 := by
  simp only [digitChar]
  omega

theorem putDigits_digits (fuel : Nat) :
    ∀ (v : Nat) (acc : List Byte), (∀ b ∈ acc, isDigitByte b = true) →
      ∀ b ∈ OStream.putDigits fuel v acc, isDigitByte b = true := by
  induction fuel with
  | zero => intro v acc hacc; simpa [OStream.putDigits] using hacc
  | succ n ih =>
    intro v acc hacc
    have hcons : ∀ b ∈ digitChar v :: acc, isDigitByte b = true := by
      intro b hb
      rcases List.mem_cons.1 hb with rfl | hb
      · exact isDigit_digitChar v
      · exact hacc b hb
    rw [OStream.putDigits]
    split
    · exact hcons
    · exact ih _ _ hcons

theorem putDigits_ne_nil (fuel v : Nat) (acc : List Byte) :
    OStream.putDigits (fuel + 1) v acc ≠ [] := by
  induction fuel generalizing v acc with
  | zero =>
    rw [OStream.putDigits]
    split <;> simp [OStream.putDigits]
  | succ n ih =>
    rw [OStream.putDigits]
    split
    · simp
    · exact ih _ _

theorem digitsValue_cons (a : Nat) (d : Byte) (ds : List Byte) :
    IStream.digitsValue a (d :: ds) = IStream.digitsValue (a * 10 + (d.val - 48)) ds := rfl

theorem digitsValue_putDigits (fuel : Nat) :
    ∀ (v : Nat) (acc : List Byte), v < fuel →
      IStream.digitsValue 0 (OStream.putDigits fuel v acc) = IStream.digitsValue v acc := by
  induction fuel with
  | zero => intro v acc hv; omega
  | succ n ih =>
    intro v acc hv
    rw [OStream.putDigits]
    split
    · rename_i h0
      rw [digitsValue_cons, digitChar_val]
      have : v % 10 = v := Nat.mod_eq_of_lt (by omega)
      simp [this]
    · rename_i h0
      rw [ih (v / 10) _ (by omega), digitsValue_cons, digitChar_val]
      congr 1
      omega

theorem digitsValue_decimal (v : Nat) : IStream.digitsValue 0 (OStream.decimal v) = v := by
  unfold OStream.decimal
  rw [digitsValue_putDigits (v + 1) v [] (by omega)]
  rfl

theorem decimal_digits (v : Nat) : ∀ b ∈ OStream.decimal v, isDigitByte b = true :=
  putDigits_digits (v + 1) v [] (by simp)

theorem decimal_ne_nil (v : Nat) : OStream.decimal v ≠ [] :=
  putDigits_ne_nil v v []

theorem takeWhile_digits (ds tail : List Byte) (hds : ∀ b ∈ ds, isDigitByte b = true)
    (ht : EndsToken tail) :
    (ds ++ tail).takeWhile isDigitByte = ds ∧ (ds ++ tail).dropWhile isDigitByte = tail := by
  induction ds with
  | nil =>
    cases tail with
    | nil => simp
    | cons c t =>
      have : isDigitByte c = false := ht c (by simp)
      simp [List.takeWhile_cons, List.dropWhile_cons, this]
  | cons d ds ih =>
    have hd : isDigitByte d = true := hds d (by simp)
    obtain ⟨i1, i2⟩ := ih (fun b hb => hds b (by simp [hb]))
    simp [List.takeWhile_cons, List.dropWhile_cons, hd, i1, i2]

theorem digit_not_space (c : Byte) (hc : isDigitByte c = true) :
    isSpaceByte c = false ∧ c ≠ chSemi ∧ c ≠ chMinus ∧ c ≠ chPlus := by
  simp only [isDigitByte, Bool.and_eq_true, decide_eq_true_eq] at hc
  refine ⟨?_, ?_, ?_, ?_⟩
  · simp only [isSpaceByte, Bool.or_eq_false_iff, beq_eq_false_iff_ne, ne_eq,
      Bool.and_eq_false_imp, decide_eq_true_eq, decide_eq_false_iff_not]
    omega
  · rintro rfl; revert hc; decide
  · rintro rfl; revert hc; decide
  · rintro rfl; revert hc; decide

/-- Formatted extraction of a canonical decimal token of a 32-bit value. -/
theorem extractU32_decimal (s : IStream) (v W : Nat) (tail : List Byte)
    (hs : s.good = true) (hv : v < 4294967296) (hb : s.buf = OStream.decimal v ++ tail)
    (ht : EndsToken tail) :
    s.extractU32 W = ({ s with buf := tail, eofbit := tail.isEmpty }, v) := by
  obtain ⟨h1, h2, h3⟩ := (istream_good_iff s).1 hs
  obtain ⟨d, ds, hd⟩ := List.exists_cons_of_ne_nil (decimal_ne_nil v)
  have hdig := decimal_digits v
  rw [hd] at hdig
  have hdd : isDigitByte d = true := hdig d (by simp)
  obtain ⟨n1, n2, n3, n4⟩ := digit_not_space d hdd
  have hbuf : s.buf = d :: (ds ++ tail) := by rw [hb, hd]; rfl
  have hdrop : s.buf.dropWhile isSpaceByte = d :: (ds ++ tail) := by
    rw [hbuf]; simp [List.dropWhile_cons, n1]
  obtain ⟨t1, t2⟩ := takeWhile_digits (d :: ds) tail hdig ht
  have hval : IStream.digitsValue 0 (d :: ds) = v := by rw [← hd]; exact digitsValue_decimal v
  unfold IStream.extractU32
  rw [if_pos hs, hdrop]
  simp only [n3, n4, or_self, if_false]
  have e1 : d :: (ds ++ tail) = (d :: ds) ++ tail := rfl
  rw [e1, t1, t2, hval]
  have hnle : ¬ (4294967295 < v) := by omega
  simp [hnle, h1, h2]

/-! ## Text-mode decoding of tokens -/

theorem filler_endsToken (p x : List Byte) (hp : Filler p) (hne : p ≠ []) :
    EndsToken (p ++ x) := by
  cases hp with
  | nil => exact absurd rfl hne
  | space c q hc _ =>
    intro b hb
    simp only [List.cons_append, List.head?_cons, Option.mem_def, Option.some.injEq] at hb
    subst hb
    simp only [isSpaceByte, Bool.or_eq_true, beq_iff_eq, Bool.and_eq_true,
      decide_eq_true_eq] at hc
    simp only [isDigitByte, Bool.and_eq_false_imp, decide_eq_true_eq, decide_eq_false_iff_not]
    omega
  | comment body q _ _ =>
    intro b hb
    simp only [List.cons_append, List.head?_cons, Option.mem_def, Option.some.injEq] at hb
    subst hb
    decide

theorem decode_text_token {Module Entry : Type} (h : Host) (I : SPIRVDecoder Module Entry)
    (p tail : List Byte) (v junk : Nat) (hI : I.IS.good = true) (hp : Filler p)
    (hv : v < 4294967296) (ht : EndsToken tail)
    (hb : I.IS.buf = p ++ OStream.decimal v ++ tail) :
    decode true h 32 junk I
      = ({ I with IS := { I.IS with buf := tail, eofbit := tail.isEmpty } }, v) := by
  obtain ⟨d, ds, hd⟩ := List.exists_cons_of_ne_nil (decimal_ne_nil v)
  have hdd : isDigitByte d = true := by
    have := decimal_digits v d; rw [hd] at this; exact this (by simp)
  obtain ⟨n1, n2, _, _⟩ := digit_not_space d hdd
  have hb2 : I.IS.buf = p ++ d :: (ds ++ tail) := by rw [hb, hd]; simp
  have hsk := skipcomment_filler h I.IS p d (ds ++ tail) hI hb2 hp n1 n2
  have hex := extractU32_decimal { I.IS with buf := d :: (ds ++ tail) } v junk tail
    (good_with_buf _ _ hI) hv (by rw [hd]; rfl) ht
  simp only [decode, if_true, hsk, hex, castTo_word v hv]

theorem decodeWords_tokenText {Module Entry : Type} (h : Host) (junk : Nat → Nat)
    (tail : List Byte) (ht : EndsToken tail) :
    ∀ (ts : List (List Byte × Nat)), (∀ t ∈ ts, Filler t.1 ∧ t.2 < 4294967296) →
      (∀ t ∈ ts.tail, t.1 ≠ []) →
      ∀ (J : Nat) (I : SPIRVDecoder Module Entry), I.IS.good = true →
        I.IS.buf = tokenText ts ++ tail →
        (decodeWords true h 32 junk ts.length J I).2 = ts.map (fun t => t.2)
          ∧ (decodeWords true h 32 junk ts.length J I).1.IS.buf = tail
          ∧ (decodeWords true h 32 junk ts.length J I).1.IS.failbit = false := by
  intro ts
  induction ts with
  | nil =>
    intro _ _ J I hI hb
    obtain ⟨_, h2, _⟩ := (istream_good_iff I.IS).1 hI
    exact ⟨rfl, by simpa [tokenText] using hb, h2⟩
  | cons t ts ih =>
    intro hall hsep J I hI hb
    obtain ⟨_, h2, _⟩ := (istream_good_iff I.IS).1 hI
    obtain ⟨hp, hv⟩ := hall t (by simp)
    have hb' : I.IS.buf = t.1 ++ OStream.decimal t.2 ++ (tokenText ts ++ tail) := by
      rw [hb]; simp [tokenText]
    cases ts with
    | nil =>
      have hstep := decode_text_token h I t.1 (tokenText [] ++ tail) t.2 (junk J) hI hp hv
        (by simpa [tokenText] using ht) hb'
      simp only [List.length_cons, List.length_nil, decodeWords, hstep, List.map_cons,
        List.map_nil, tokenText, List.nil_append, true_and, zero_add]
      exact h2
    | cons t' ts' =>
      have hne : t'.1 ≠ [] := hsep t' (by simp)
      obtain ⟨hp', _⟩ := hall t' (by simp)
      have hends : EndsToken (tokenText (t' :: ts') ++ tail) := by
        have := filler_endsToken t'.1 (OStream.decimal t'.2 ++ tokenText ts' ++ tail) hp' hne
        simpa [tokenText] using this
      have hstep := decode_text_token h I t.1 (tokenText (t' :: ts') ++ tail) t.2 (junk J)
        hI hp hv hends hb'
      have hnemp : (tokenText (t' :: ts') ++ tail).isEmpty = false := by
        cases hq : t'.1 with
        | nil => exact absurd hq hne
        | cons a b => simp [tokenText, hq]
      have hg : (decode true h 32 (junk J) I).1.IS.good = true := by
        obtain ⟨g1, g2, g3⟩ := (istream_good_iff I.IS).1 hI
        rw [hstep]
        simp [IStream.good, hnemp, g2, g3]
      have hbuf : (decode true h 32 (junk J) I).1.IS.buf = tokenText (t' :: ts') ++ tail := by
        rw [hstep]
      obtain ⟨i1, i2, i3⟩ := ih (fun x hx => hall x (by simp [hx]))
        (fun x hx => hsep x (by simp at hx ⊢; exact Or.inr hx)) (J + 1) _ hg hbuf
      have hunf : decodeWords true h 32 junk (t :: t' :: ts').length J I
          = ((decodeWords true h 32 junk (t' :: ts').length (J + 1)
                (decode true h 32 (junk J) I).1).1,
              (decode true h 32 (junk J) I).2 ::
                (decodeWords true h 32 junk (t' :: ts').length (J + 1)
                  (decode true h 32 (junk J) I).1).2) := rfl
      rw [hunf]
      refine ⟨?_, i2, i3⟩
      simp only [List.map_cons]
      rw [i1, hstep]
      rfl

/-! ## Encoding -/

theorem encode_good (text : Bool) (h : Host) (O : SPIRVEncoder) (V : Nat)
    (hO : O.OS.good = true) :
    encode text h O V = { O with OS := { O.OS with out := O.OS.out ++ wordImage text h V } }
      ∧ (encode text h O V).OS.good = true := by
  cases text with
  | false =>
    have e : encode false h O V
        = { O with OS := { O.OS with out := O.OS.out ++ wordImage false h V } } := by
      simp [encode, wordImage, ostream_write_good _ _ hO]
    refine ⟨e, ?_⟩
    rw [e]; simpa [OStream.good] using hO
  | true =>
    have g1 := ostream_write_stays_good O.OS (OStream.decimal V) hO
    have e : encode true h O V
        = { O with OS := { O.OS with out := O.OS.out ++ wordImage true h V } } := by
      simp only [encode, if_true, OStream.putUnsigned, wordImage]
      rw [ostream_write_good _ _ g1, ostream_write_good _ _ hO]
      simp
    refine ⟨e, ?_⟩
    rw [e]; simpa [OStream.good] using hO

theorem foldl_encode (text : Bool) (h : Host) (ws : List Nat) :
    ∀ (O : SPIRVEncoder), O.OS.good = true →
      ws.foldl (fun O w => encode text h O w) O
        = { O with OS := { O.OS with out := O.OS.out ++ ws.flatMap (wordImage text h) } } := by
  induction ws with
  | nil => intro O _; simp
  | cons w ws ih =>
    intro O hO
    obtain ⟨e, g⟩ := encode_good text h O w hO
    rw [List.foldl_cons, ih _ g, e]
    simp

theorem encodeVecLoop_eq (text : Bool) (h : Host) (V : List Nat) :
    ∀ (n I : Nat) (O : SPIRVEncoder), I + n = V.length →
      encodeVecLoop text h n I O V = (V.drop I).foldl (fun O w => encode text h O w) O := by
  intro n
  induction n with
  | zero =>
    intro I O hI
    have : V.drop I = [] := List.drop_eq_nil_of_le (by omega)
    simp [encodeVecLoop, this]
  | succ n ih =>
    intro I O hI
    have hlt : I < V.length := by omega
    have hd : V.drop I = V[I] :: V.drop (I + 1) := List.drop_eq_getElem_cons hlt
    have hg : V.getD I 0 = V[I] := by simp [List.getD, List.getElem?_eq_getElem hlt]
    rw [encodeVecLoop, ih (I + 1) _ (by omega), hd, hg]
    rfl

theorem encodeVec_eq (text : Bool) (h : Host) (O : SPIRVEncoder) (V : List Nat) :
    encodeVec text h O V = V.foldl (fun O w => encode text h O w) O := by
  unfold encodeVec
  rw [encodeVecLoop_eq text h V V.length 0 O (by omega)]
  simp

/-- The text written for `w :: ws` is a token text whose first separator is
empty and whose other separators are one space, followed by one space. -/
theorem flatMap_text_eq (h : Host) (ws : List Nat) :
    ∀ (w : Nat), (w :: ws).flatMap (wordImage true h)
      = tokenText (([], w) :: ws.map (fun v => ([chSpace], v))) ++ [chSpace] := by
  induction ws with
  | nil => intro w; simp [wordImage, tokenText]
  | cons v vs ih =>
    intro w
    have := ih v
    simp only [List.flatMap_cons, List.map_cons, tokenText, List.nil_append,
      List.append_assoc] at this ⊢
    rw [this]
    simp [wordImage]

theorem decodeBinary_append {Module Entry : Type} (h : Host) (v : Nat) (hv : v < 4294967296)
    (junk : Nat) (I : SPIRVDecoder Module Entry) (rest : List Byte)
    (hI : I.IS.good = true) (hb : I.IS.buf = wordToBytes h v ++ rest) :
    decodeBinary h 32 junk I = ({ I with IS := { I.IS with buf := rest } }, v) := by
  have hr := istream_read_append I.IS (wordToBytes h v) rest hI hb
  rw [wordToBytes_length] at hr
  simp only [decodeBinary, hr, wordToBytes_length, List.drop_length]
  rw [bytesToWord_wordToBytes h v hv, castTo_word v hv]

/-! ## Sequences -/

theorem bytesToWord_lt (h : Host) (bs : List Byte) : bytesToWord h bs < 4294967296 := by
  have h0 := (bs.getD 0 0).isLt
  have h1 := (bs.getD 1 0).isLt
  have h2 := (bs.getD 2 0).isLt
  have h3 := (bs.getD 3 0).isLt
  unfold bytesToWord
  cases h.bigEndian <;> simp only [Bool.false_eq_true, if_false, if_true] <;> omega

theorem castTo_wide (bits W : Nat) (hb : 32 ≤ bits) (hW : W < 4294967296) :
    castTo bits W = W := by
  unfold castTo
  apply Nat.mod_eq_of_lt
  calc W < 2 ^ 32 := by simpa using hW
    _ ≤ 2 ^ bits := Nat.pow_le_pow_right (by decide) hb

theorem bytesToWord_take (h : Host) (bs x : List Byte) (hlen : 4 ≤ bs.length) :
    bytesToWord h (bs.take 4 ++ x) = bytesToWord h bs := by
  have hg : ∀ i, i < 4 → (bs.take 4 ++ x).getD i 0 = bs.getD i 0 := by
    intro i hi
    have h1 : i < (bs.take 4).length := by simp; omega
    simp only [List.getD_eq_getElem?_getD]
    rw [List.getElem?_append_left h1, List.getElem?_take_of_lt hi]
  unfold bytesToWord
  simp only [hg 0 (by decide), hg 1 (by decide), hg 2 (by decide), hg 3 (by decide)]

theorem decodeBinary_full {Module Entry : Type} (h : Host) (bits junk : Nat)
    (I : SPIRVDecoder Module Entry) (hI : I.IS.good = true) (hlen : 4 ≤ I.IS.buf.length) :
    decodeBinary h bits junk I
      = ({ I with IS := { I.IS with buf := I.IS.buf.drop 4 } },
          castTo bits (bytesToWord h I.IS.buf)) := by
  have ht : (I.IS.buf.take 4).length = 4 := by simp; omega
  simp only [decodeBinary, IStream.read, hI, if_true, ht, bytesToWord_take h _ _ hlen]

theorem decodeWords_binary {Module Entry : Type} (h : Host) (bits : Nat) (junk : Nat → Nat) :
    ∀ (n J : Nat) (I : SPIRVDecoder Module Entry), I.IS.good = true →
      4 * n ≤ I.IS.buf.length →
      decodeWords false h bits junk n J I
        = ({ I with IS := { I.IS with buf := I.IS.buf.drop (4 * n) } },
            (List.range n).map (fun j => castTo bits (bytesToWord h (I.IS.buf.drop (4 * j))))) := by
  intro n
  induction n with
  | zero =>
    intro J I _ _
    simp [decodeWords]
  | succ n ih =>
    intro J I hI hlen
    have hstep : decode false h bits (junk J) I
        = ({ I with IS := { I.IS with buf := I.IS.buf.drop 4 } },
            castTo bits (bytesToWord h I.IS.buf)) := by
      simp only [decode, Bool.false_eq_true, if_false]
      exact decodeBinary_full h bits (junk J) I hI (by omega)
    have hunf : decodeWords false h bits junk (n + 1) J I
        = ((decodeWords false h bits junk n (J + 1) (decode false h bits (junk J) I).1).1,
            (decode false h bits (junk J) I).2 ::
              (decodeWords false h bits junk n (J + 1)
                (decode false h bits (junk J) I).1).2) := rfl
    rw [hunf, hstep]
    have := ih (J + 1) { I with IS := { I.IS with buf := I.IS.buf.drop 4 } }
      (good_with_buf _ _ hI) (by simp only [List.length_drop]; omega)
    rw [this]
    simp only [List.drop_drop, List.range_succ_eq_map, List.map_cons, List.map_map,
      List.drop_zero, Nat.mul_zero]
    refine Prod.ext ?_ ?_
    · simp only
      congr 3
      omega
    · simp only [List.cons.injEq, true_and]
      apply List.map_congr_left
      intro j _
      simp only [Function.comp_apply]
      congr 3
      omega

theorem decodeVecLoop_eq {Module Entry : Type} (text : Bool) (h : Host) (bits : Nat)
    (junk : Nat → Nat) :
    ∀ (n J : Nat) (I : SPIRVDecoder Module Entry) (V : List Nat), J + n = V.length →
      decodeVecLoop text h bits junk n J I V
        = ((decodeWords text h bits junk n J I).1,
            V.take J ++ (decodeWords text h bits junk n J I).2) := by
  intro n
  induction n with
  | zero =>
    intro J I V hJ
    simp [decodeVecLoop, decodeWords, List.take_of_length_le (show V.length ≤ J by omega)]
  | succ n ih =>
    intro J I V hJ
    have hlt : J < V.length := by omega
    rw [decodeVecLoop, ih (J + 1) _ _ (by simp; omega)]
    have htake : (V.set J (decode text h bits (junk J) I).2).take (J + 1)
        = V.take J ++ [(decode text h bits (junk J) I).2] := by
      rw [List.set_eq_take_append_cons_drop, if_pos hlt]
      rw [List.take_append_eq_append_take]
      simp [List.take_take, List.length_take, Nat.min_eq_left (le_of_lt hlt)]
    rw [htake]
    simp [decodeWords]

theorem decodeVec_eq {Module Entry : Type} (text : Bool) (h : Host) (bits : Nat)
    (junk : Nat → Nat) (I : SPIRVDecoder Module Entry) (V : List Nat) :
    decodeVec text h bits junk I V = decodeWords text h bits junk V.length 0 I := by
  unfold decodeVec
  rw [decodeVecLoop_eq text h bits junk V.length 0 I V (by omega)]
  simp

theorem decodeWords_binary_roundtrip {Module Entry : Type} (h : Host) (junk : Nat → Nat)
    (rest : List Byte) :
    ∀ (ws : List Nat) (J : Nat) (I : SPIRVDecoder Module Entry), (∀ w ∈ ws, w < 4294967296) →
      I.IS.good = true → I.IS.buf = ws.flatMap (wordImage false h) ++ rest →
      decodeWords false h 32 junk ws.length J I
        = ({ I with IS := { I.IS with buf := rest } }, ws) := by
  intro ws
  induction ws with
  | nil =>
    intro J I _ _ hb
    simp only [List.flatMap_nil, List.nil_append] at hb
    simp only [List.length_nil, decodeWords]
    rw [← hb, with_buf_self I.IS _ rfl]
  | cons w ws ih =>
    intro J I hws hI hb
    have hw : w < 4294967296 := hws w (by simp)
    have hb' : I.IS.buf = wordToBytes h w ++ (ws.flatMap (wordImage false h) ++ rest) := by
      rw [hb]; simp [wordImage, castTo_word w hw]
    have hstep : decode false h 32 (junk J) I
        = ({ I with IS := { I.IS with buf := ws.flatMap (wordImage false h) ++ rest } }, w) := by
      simp only [decode, Bool.false_eq_true, if_false]
      exact decodeBinary_append h w hw (junk J) I _ hI hb'
    have hunf : decodeWords false h 32 junk (w :: ws).length J I
        = ((decodeWords false h 32 junk ws.length (J + 1) (decode false h 32 (junk J) I).1).1,
            (decode false h 32 (junk J) I).2 ::
              (decodeWords false h 32 junk ws.length (J + 1)
                (decode false h 32 (junk J) I).1).2) := rfl
    have hih := ih (J + 1)
      { I with IS := { I.IS with buf := ws.flatMap (wordImage false h) ++ rest } }
      (fun x hx => hws x (by simp [hx])) (good_with_buf _ _ hI) rfl
    rw [hunf, hstep]
    dsimp only
    rw [hih]

theorem flatMap_binary_length (h : Host) (ws : List Nat) :
    (ws.flatMap (wordImage false h)).length = 4 * ws.length := by
  induction ws with
  | nil => rfl
  | cons w ws ih =>
    simp only [List.flatMap_cons, List.length_append, ih, List.length_cons]
    simp only [wordImage, Bool.false_eq_true, if_false, wordToBytes_length]
    omega

/-! ## Pointers, ranges and the frame -/

theorem decode_wordImage {Module Entry : Type} (text : Bool) (h : Host) (v junk : Nat)
    (I : SPIRVDecoder Module Entry) (rest : List Byte) (hI : I.IS.good = true)
    (hv : v < 4294967296) (hb : I.IS.buf = wordImage text h v ++ rest) :
    decode text h 32 junk I
      = ({ I with IS := { I.IS with buf := if text = true then chSpace :: rest else rest } },
          v) := by
  cases text with
  | false =>
    have hb' : I.IS.buf = wordToBytes h v ++ rest := by
      rw [hb]; simp [wordImage, castTo_word v hv]
    simp only [decode, Bool.false_eq_true, if_false]
    exact decodeBinary_append h v hv junk I rest hI hb'
  | true =>
    obtain ⟨h1, _, _⟩ := (istream_good_iff I.IS).1 hI
    have hb' : I.IS.buf = [] ++ OStream.decimal v ++ (chSpace :: rest) := by
      rw [hb]; simp [wordImage]
    have hends : EndsToken (chSpace :: rest) := by
      intro c hc
      simp only [List.head?_cons, Option.mem_def, Option.some.injEq] at hc
      subst hc
      decide
    rw [decode_text_token h I [] (chSpace :: rest) v junk hI Filler.nil hv hends hb']
    simp [h1]

theorem sameBookkeeping_refl {Module Entry : Type} (I : SPIRVDecoder Module Entry) :
    SameBookkeeping I I :=
  ⟨rfl, rfl, rfl, rfl⟩

theorem sameBookkeeping_trans {Module Entry : Type} (I J K : SPIRVDecoder Module Entry)
    (h1 : SameBookkeeping I J) (h2 : SameBookkeeping J K) : SameBookkeeping I K :=
  ⟨h2.1.trans h1.1, h2.2.1.trans h1.2.1, h2.2.2.1.trans h1.2.2.1, h2.2.2.2.trans h1.2.2.2⟩

theorem decode_sameBookkeeping {Module Entry : Type} (text : Bool) (h : Host)
    (bits junk : Nat) (I : SPIRVDecoder Module Entry) :
    SameBookkeeping I (decode text h bits junk I).1 := by
  cases text with
  | false => exact ⟨rfl, rfl, rfl, rfl⟩
  | true => exact ⟨rfl, rfl, rfl, rfl⟩

theorem decodeVecLoop_sameBookkeeping {Module Entry : Type} (text : Bool) (h : Host)
    (bits : Nat) (junk : Nat → Nat) :
    ∀ (n J : Nat) (I : SPIRVDecoder Module Entry) (V : List Nat),
      SameBookkeeping I (decodeVecLoop text h bits junk n J I V).1 := by
  intro n
  induction n with
  | zero => intro J I V; exact sameBookkeeping_refl I
  | succ n ih =>
    intro J I V
    rw [decodeVecLoop]
    exact sameBookkeeping_trans _ _ _ (decode_sameBookkeeping text h bits (junk J) I)
      (ih (J + 1) _ _)

theorem decodeRangeLoop_sameBookkeeping {Module Entry : Type} (text : Bool) (h : Host)
    (bits : Nat) (junk : Nat → Nat) :
    ∀ (fuel I E : Nat) (Decoder : SPIRVDecoder Module Entry) (V : List Nat),
      SameBookkeeping Decoder (decodeRangeLoop text h bits junk fuel I E Decoder V).1 := by
  intro fuel
  induction fuel with
  | zero => intro I E Decoder V; exact sameBookkeeping_refl Decoder
  | succ n ih =>
    intro I E Decoder V
    rw [decodeRangeLoop]
    split
    · exact sameBookkeeping_trans _ _ _ (decode_sameBookkeeping text h bits (junk I) Decoder)
        (ih (I + 1) E _ _)
    · exact sameBookkeeping_refl Decoder

theorem decodeRangeLoop_eq {Module Entry : Type} (text : Bool) (h : Host) (bits : Nat)
    (junk : Nat → Nat) (E : Nat) :
    ∀ (n J : Nat) (I : SPIRVDecoder Module Entry) (V : List Nat), J + n = E →
      decodeRangeLoop text h bits junk (n + 1) J E I V
        = decodeVecLoop text h bits junk n J I V := by
  intro n
  induction n with
  | zero =>
    intro J I V hJ
    have : ¬ (J ≠ E) := by omega
    rw [decodeRangeLoop, if_neg this]
    rfl
  | succ n ih =>
    intro J I V hJ
    have : J ≠ E := by omega
    rw [decodeRangeLoop, if_pos this, ih (J + 1) _ _ (by omega)]
    rfl

theorem encodeRangeLoop_eq (text : Bool) (h : Host) (V : List Nat) (E : Nat) :
    ∀ (n I : Nat) (O : SPIRVEncoder), I + n = E →
      encodeRangeLoop text h (n + 1) I E O V = encodeVecLoop text h n I O V := by
  intro n
  induction n with
  | zero =>
    intro I O hI
    have : ¬ (I ≠ E) := by omega
    rw [encodeRangeLoop, if_neg this]
    rfl
  | succ n ih =>
    intro I O hI
    have : I ≠ E := by omega
    rw [encodeRangeLoop, if_pos this, ih (I + 1) _ (by omega)]
    rfl

theorem decodeBinary_cast {Module Entry : Type} (h : Host) (bits W junk : Nat)
    (I : SPIRVDecoder Module Entry) (rest : List Byte) (hI : I.IS.good = true)
    (hW : W < 4294967296) (hb : I.IS.buf = wordToBytes h W ++ rest) :
    decode false h bits junk I = ({ I with IS := { I.IS with buf := rest } }, castTo bits W) := by
  have hlen : 4 ≤ I.IS.buf.length := by
    rw [hb, List.length_append, wordToBytes_length]; omega
  have hd : I.IS.buf.drop 4 = rest := by
    rw [hb, ← wordToBytes_length h W, List.drop_left]
  simp only [decode, Bool.false_eq_true, if_false]
  rw [decodeBinary_full h bits junk I hI hlen, hd]
  rw [hb, bytesToWord_wordToBytes h W hW]

/-! ## The claims -/

/-- C1. Binary round trip of a word.  In binary mode the generic `operator<<`
appends to a good output stream exactly the four bytes of the object
representation of the 32-bit value `v`; and `decodeBinary` (to which the generic
`operator>>` reduces in binary mode), applied to a good stream that begins with
those four bytes, yields `v` and leaves the stream right after them. -/
theorem binary_word_round_trip {Module Entry : Type} (h : Host) (v : Nat) (O : SPIRVEncoder)
    (I : SPIRVDecoder Module Entry) (rest : List Byte) (junk : Nat)
    (hv : IsWord v) (hO : O.OS.good = true) (hI : I.IS.good = true)
    (hb : I.IS.buf = wordToBytes h v ++ rest) :
    (encode false h O v).OS.out = O.OS.out ++ wordToBytes h v
      ∧ (wordToBytes h v).length = 4
      ∧ decode false h 32 junk I = decodeBinary h 32 junk I
      ∧ decodeBinary h 32 junk I = ({ I with IS := { I.IS with buf := rest } }, v) := by
  refine ⟨?_, wordToBytes_length h v, by simp [decode], decodeBinary_append h v hv junk I rest hI hb⟩
  rw [(encode_good false h O v hO).1]
  simp [wordImage, castTo_word v hv]

theorem binary_word_round_trip_witness :
    (encode false hostLE encoderNew 196613).OS.out = encoderNew.OS.out ++ wordToBytes hostLE 196613
      ∧ (wordToBytes hostLE 196613).length = 4
      ∧ decode false hostLE 32 0 (decoderOn [5, 0, 3, 0, 7, 0, 0, 0])
          = decodeBinary hostLE 32 0 (decoderOn [5, 0, 3, 0, 7, 0, 0, 0])
      ∧ decodeBinary hostLE 32 0 (decoderOn [5, 0, 3, 0, 7, 0, 0, 0])
          = ({ decoderOn [5, 0, 3, 0, 7, 0, 0, 0] with
                IS := { (decoderOn [5, 0, 3, 0, 7, 0, 0, 0]).IS with buf := [7, 0, 0, 0] } },
              196613) :=
  binary_word_round_trip hostLE 196613 encoderNew (decoderOn [5, 0, 3, 0, 7, 0, 0, 0])
    [7, 0, 0, 0] 0 (by decide) (by decide) (by decide) (by decide)

/-- C2. Text round trip of a word sequence.  In text mode, encoding the 32-bit
values of `ws` in order with the generic `operator<<` on a good output stream
appends, for each, its decimal token and one space; and decoding `ws.length`
words with the generic `operator>>` from a good stream holding that text yields
exactly `ws`, in order, without failure. -/
theorem text_words_round_trip {Module Entry : Type} (h : Host) (ws : List Nat)
    (O : SPIRVEncoder) (I : SPIRVDecoder Module Entry) (junk : Nat → Nat)
    (hws : ∀ w ∈ ws, IsWord w) (hO : O.OS.good = true) (hI : I.IS.good = true)
    (hb : I.IS.buf = ws.flatMap (fun w => OStream.decimal w ++ [chSpace])) :
    (ws.foldl (fun O w => encode true h O w) O).OS.out
        = O.OS.out ++ ws.flatMap (fun w => OStream.decimal w ++ [chSpace])
      ∧ (decodeWords true h 32 junk ws.length 0 I).2 = ws
      ∧ (decodeWords true h 32 junk ws.length 0 I).1.IS.failbit = false := by
  have himg : (fun w => OStream.decimal w ++ [chSpace]) = wordImage true h := by
    funext w; simp [wordImage]
  refine ⟨?_, ?_⟩
  · rw [foldl_encode true h ws O hO, himg]
  · cases ws with
    | nil =>
      obtain ⟨_, h2, _⟩ := (istream_good_iff I.IS).1 hI
      exact ⟨rfl, h2⟩
    | cons w ws =>
      rw [himg, flatMap_text_eq h ws w] at hb
      have hends : EndsToken [chSpace] := by
        intro c hc
        simp only [List.head?_cons, Option.mem_def, Option.some.injEq] at hc
        subst hc
        decide
      have hall : ∀ t ∈ ([], w) :: ws.map (fun v => ([chSpace], v)),
          Filler t.1 ∧ t.2 < 4294967296 := by
        intro t ht
        rcases List.mem_cons.1 ht with rfl | ht
        · exact ⟨Filler.nil, hws w (by simp)⟩
        · obtain ⟨v, hv, rfl⟩ := List.mem_map.1 ht
          exact ⟨Filler.space chSpace [] (by decide) Filler.nil, hws v (by simp [hv])⟩
      have hsep : ∀ t ∈ (([], w) :: ws.map (fun v => ([chSpace], v))).tail, t.1 ≠ [] := by
        intro t ht
        obtain ⟨v, _, rfl⟩ := List.mem_map.1 ht
        simp
      obtain ⟨r1, _, r3⟩ := decodeWords_tokenText h junk [chSpace] hends _ hall hsep 0 I hI hb
      simp only [List.length_cons, List.length_map, List.map_cons, List.map_map] at r1 r3
      refine ⟨?_, r3⟩
      rw [List.length_cons, r1]
      simp [Function.comp_def]

theorem text_words_round_trip_witness :
    ([196613, 0, 4294967295].foldl (fun O w => encode true hostLE O w) encoderNew).OS.out
        = encoderNew.OS.out
            ++ [196613, 0, 4294967295].flatMap (fun w => OStream.decimal w ++ [chSpace])
      ∧ (decodeWords true hostLE 32 (fun _ => 0) [196613, 0, 4294967295].length 0
            (decoderOn (bytesOf "196613 0 4294967295 "))).2 = [196613, 0, 4294967295]
      ∧ (decodeWords true hostLE 32 (fun _ => 0) [196613, 0, 4294967295].length 0
            (decoderOn (bytesOf "196613 0 4294967295 "))).1.IS.failbit = false :=
  text_words_round_trip hostLE [196613, 0, 4294967295] encoderNew
    (decoderOn (bytesOf "196613 0 4294967295 ")) (fun _ => 0)
    (by decide) (by decide) (by decide) (by decide)

theorem decodeBinary_short {Module Entry : Type} (h : Host) (bits junk : Nat)
    (I : SPIRVDecoder Module Entry) (hI : I.IS.good = true) (hlen : I.IS.buf.length < 4) :
    decodeBinary h bits junk I
      = ({ I with IS := { I.IS with buf := [], eofbit := true, failbit := true } },
          castTo bits (bytesToWord h
            (I.IS.buf ++ (wordToBytes h junk).drop I.IS.buf.length))) := by
  have ht : I.IS.buf.take 4 = I.IS.buf := List.take_of_length_le (by omega)
  have hd : I.IS.buf.drop 4 = [] := List.drop_eq_nil_of_le (by omega)
  have hne : ¬ (I.IS.buf.length = 4) := by omega
  simp only [decodeBinary, IStream.read, hI, if_true, ht, hd, hne, if_false]

theorem takeWhile_nil_of_not_starts (c : Byte) (cs : List Byte)
    (hn : startsNumber (c :: cs) = false) :
    (if c = chMinus ∨ c = chPlus then cs else c :: cs).takeWhile isDigitByte = [] := by
  by_cases hc : c = chMinus ∨ c = chPlus
  · rw [if_pos hc]
    cases cs with
    | nil => rfl
    | cons d t =>
      simp only [startsNumber, if_pos hc] at hn
      simp [List.takeWhile_cons, hn]
  · rw [if_neg hc]
    simp only [startsNumber, if_neg hc] at hn
    simp [List.takeWhile_cons, hn]

theorem decode_text_no_number {Module Entry : Type} (h : Host) (bits junk : Nat)
    (I : SPIRVDecoder Module Entry) (hI : I.IS.good = true)
    (hn : startsNumber (skipcomment h I.IS).buf = false) :
    (decode true h bits junk I).1.IS.failbit = true
      ∧ (decode true h bits junk I).2
          = castTo bits (if (skipcomment h I.IS).buf = [] then junk else 0) := by
  obtain ⟨_, hset⟩ := skipcomment_settled h I.IS hI
  simp only [decode, if_true]
  rcases hset with ⟨hg, hb⟩ | ⟨hg, c, rest, hb, hsp, _⟩
  · simp [IStream.extractU32, hg, hb]
  · rw [hb] at hn
    have htw := takeWhile_nil_of_not_starts c rest hn
    have hdrop : (skipcomment h I.IS).buf.dropWhile isSpaceByte = c :: rest := by
      rw [hb]; simp [List.dropWhile_cons, hsp]
    unfold IStream.extractU32
    rw [if_pos hg, hdrop]
    simp only [htw, hb]
    simp

/-- C3 (counterexample). The claim fails on the code: when the stream is
truncated the target field is still assigned.  In binary mode, decoding from
the two bytes `01 02` stores a word made of those bytes and of the
indeterminate upper bytes of the uninitialised local (here `0xDEADBEEF`); in
text mode, decoding from `x` stores zero, and decoding from the empty stream
stores the indeterminate value itself. -/
theorem truncated_decode_assigns_target :
    (decode false hostLE 32 3735928559 (decoderOn [1, 2])).2 = 3735880193
      ∧ (decode true hostLE 32 3735928559 (decoderOn (bytesOf "x"))).2 = 0
      ∧ (decode true hostLE 32 3735928559 (decoderOn [])).2 = 3735928559 := by
  decide

/-- C3 (amended). On a good stream with fewer than 4 bytes left (binary mode),
or on which no number starts after the white space and comments (text mode),
the generic `operator>>` sets `failbit` on the stream, and still assigns the
target field: in binary mode the bytes read completed by the indeterminate
bytes of the local `W`; in text mode the indeterminate `W` when the input is
exhausted and zero otherwise. -/
theorem truncated_decode_sets_failbit {Module Entry : Type} (text : Bool) (h : Host)
    (bits junk : Nat) (I : SPIRVDecoder Module Entry) (hI : I.IS.good = true)
    (hshort : if text = true then startsNumber (skipcomment h I.IS).buf = false
      else I.IS.buf.length < 4) :
    (decode text h bits junk I).1.IS.failbit = true
      ∧ (decode text h bits junk I).2
          = castTo bits (if text = true then
              (if (skipcomment h I.IS).buf = [] then junk else 0)
            else bytesToWord h (I.IS.buf ++ (wordToBytes h junk).drop I.IS.buf.length)) := by
  cases text with
  | true =>
    simp only [if_true] at hshort ⊢
    exact decode_text_no_number h bits junk I hI hshort
  | false =>
    simp only [Bool.false_eq_true, if_false] at hshort ⊢
    have := decodeBinary_short h bits junk I hI hshort
    simp only [decode, Bool.false_eq_true, if_false, this, and_self]

theorem truncated_decode_sets_failbit_witness :
    ((decode false hostLE 32 3735928559 (decoderOn [1, 2])).1.IS.failbit = true
      ∧ (decode false hostLE 32 3735928559 (decoderOn [1, 2])).2
          = castTo 32 (if false = true then
              (if (skipcomment hostLE (decoderOn [1, 2]).IS).buf = [] then 3735928559 else 0)
            else bytesToWord hostLE ((decoderOn [1, 2]).IS.buf
              ++ (wordToBytes hostLE 3735928559).drop (decoderOn [1, 2]).IS.buf.length)))
      ∧ ((decode true hostLE 32 3735928559 (decoderOn (bytesOf " ; end"))).1.IS.failbit = true
      ∧ (decode true hostLE 32 3735928559 (decoderOn (bytesOf " ; end"))).2
          = castTo 32 (if true = true then
              (if (skipcomment hostLE (decoderOn (bytesOf " ; end")).IS).buf = []
                then 3735928559 else 0)
            else bytesToWord hostLE ((decoderOn (bytesOf " ; end")).IS.buf
              ++ (wordToBytes hostLE 3735928559).drop
                  (decoderOn (bytesOf " ; end")).IS.buf.length))) :=
  ⟨truncated_decode_sets_failbit false hostLE 32 3735928559 (decoderOn [1, 2])
      (by decide) (by decide),
    truncated_decode_sets_failbit true hostLE 32 3735928559 (decoderOn (bytesOf " ; end"))
      (by decide) (by decide)⟩

/-- C4. `skipcomment` is idempotent: on every input stream, in whatever state,
a second call leaves the stream exactly as the first left it (same remaining
characters, same state bits). -/
theorem skipcomment_idempotent (h : Host) (IS : IStream) :
    skipcomment h (skipcomment h IS) = skipcomment h IS := by
  cases hg : IS.good with
  | true => exact skipcomment_stable h _ (skipcomment_settled h IS hg).2
  | false => rw [skipcomment_not_good h IS hg, skipcomment_not_good h IS hg]

/-- C5. `skipcomment` never eats token characters: on a good stream whose
remaining content is `p ++ c :: rest`, with `p` any interleaving of white space
characters and complete line comments and `c` neither white space nor `;`,
`skipcomment` leaves exactly `c :: rest` and changes nothing else; in
particular, when `p` is empty the stream is left as it is. -/
theorem skipcomment_keeps_token (h : Host) (IS : IStream) (p : List Byte) (c : Byte)
    (rest : List Byte) (hg : IS.good = true) (hb : IS.buf = p ++ c :: rest) (hp : Filler p)
    (hsp : isSpaceByte c = false) (hc : c ≠ chSemi) :
    skipcomment h IS = { IS with buf := c :: rest }
      ∧ (p = [] → skipcomment h IS = IS) := by
  have hmain := skipcomment_filler h IS p c rest hg hb hp hsp hc
  refine ⟨hmain, ?_⟩
  intro hp0
  rw [hmain]
  subst hp0
  exact with_buf_self IS _ (by simpa using hb)

theorem skipcomment_keeps_token_witness :
    skipcomment hostLE (IStream.ofBytes (bytesOf " ;a;\n\t;\n\n7 9"))
        = { IStream.ofBytes (bytesOf " ;a;\n\t;\n\n7 9") with buf := 55 :: bytesOf " 9" }
      ∧ (bytesOf " ;a;\n\t;\n\n" = [] →
          skipcomment hostLE (IStream.ofBytes (bytesOf " ;a;\n\t;\n\n7 9"))
            = IStream.ofBytes (bytesOf " ;a;\n\t;\n\n7 9")) :=
  skipcomment_keeps_token hostLE (IStream.ofBytes (bytesOf " ;a;\n\t;\n\n7 9"))
    (bytesOf " ;a;\n\t;\n\n") 55 (bytesOf " 9") (by decide) (by decide)
    (Filler.space 32 _ (by decide)
      (Filler.comment (bytesOf "a;") _ (by decide)
        (Filler.space 9 _ (by decide)
          (Filler.comment [] _ (by decide) (Filler.space 10 _ (by decide) Filler.nil)))))
    (by decide) (by decide)

/-- C6. Postcondition of `skipcomment`: on a good stream, whatever its content
(a final comment without terminating newline included), the remaining content
afterwards is a suffix of the original content and is empty or begins with a
character that is neither white space nor `;`. -/
theorem skipcomment_postcondition (h : Host) (IS : IStream) (hg : IS.good = true) :
    (skipcomment h IS).buf <:+ IS.buf
      ∧ ((skipcomment h IS).buf = []
          ∨ ∃ c rest, (skipcomment h IS).buf = c :: rest
              ∧ isSpaceByte c = false ∧ c ≠ chSemi) := by
  obtain ⟨hsuf, hset⟩ := skipcomment_settled h IS hg
  refine ⟨hsuf, ?_⟩
  rcases hset with ⟨_, hb⟩ | ⟨_, c, rest, hb, hsp, hc⟩
  · exact Or.inl hb
  · exact Or.inr ⟨c, rest, hb, hsp, hc⟩

theorem skipcomment_postcondition_witness :
    (skipcomment hostLE (IStream.ofBytes (bytesOf " ;a\n ; no newline"))).buf
        <:+ (IStream.ofBytes (bytesOf " ;a\n ; no newline")).buf
      ∧ ((skipcomment hostLE (IStream.ofBytes (bytesOf " ;a\n ; no newline"))).buf = []
          ∨ ∃ c rest, (skipcomment hostLE (IStream.ofBytes (bytesOf " ;a\n ; no newline"))).buf
                = c :: rest
              ∧ isSpaceByte c = false ∧ c ≠ chSemi) :=
  skipcomment_postcondition hostLE (IStream.ofBytes (bytesOf " ;a\n ; no newline"))
    (by decide)

/-- C7. Text-mode decoding sees through white space and comments.  For every
list of 32-bit values, written as decimal tokens each preceded by a non-empty
run of white space and line comments (and followed, after the last, by nothing
or by a character that is not a digit), decoding as many words with the generic
`operator>>` in text mode yields exactly those values.  The stream
`"; comment\n  5 7 9\n"` decodes to the words 5, 7, 9, as does the binary
encoding of `[5, 7, 9]` in binary mode. -/
theorem text_decode_sees_through {Module Entry : Type} (h : Host)
    (ts : List (List Byte × Nat)) (tail : List Byte) (junk : Nat → Nat)
    (I : SPIRVDecoder Module Entry) (hI : I.IS.good = true)
    (hts : ∀ t ∈ ts, Filler t.1 ∧ t.1 ≠ [] ∧ IsWord t.2) (ht : EndsToken tail)
    (hb : I.IS.buf = tokenText ts ++ tail) :
    (decodeWords true h 32 junk ts.length 0 I).2 = ts.map (fun t => t.2)
      ∧ (decodeWords true h 32 (fun _ => 0) 3 0
            (decoderOn (bytesOf "; comment\n  5 7 9\n"))).2 = [5, 7, 9]
      ∧ (decodeWords false h 32 (fun _ => 0) 3 0
            (decoderOn (encodeVec false h encoderNew [5, 7, 9]).OS.out)).2 = [5, 7, 9] := by
  have hconc : ∀ h' : Host,
      (decodeWords true h' 32 (fun _ => 0) 3 0
            (decoderOn (bytesOf "; comment\n  5 7 9\n"))).2 = [5, 7, 9]
      ∧ (decodeWords false h' 32 (fun _ => 0) 3 0
            (decoderOn (encodeVec false h' encoderNew [5, 7, 9]).OS.out)).2 = [5, 7, 9] := by
    intro h'
    rcases h' with ⟨b, s⟩
    cases b <;> cases s <;> decide
  refine ⟨?_, hconc h⟩
  exact (decodeWords_tokenText h junk tail ht ts (fun t hx => ⟨(hts t hx).1, (hts t hx).2.2⟩)
    (fun t hx => (hts t (List.mem_of_mem_tail hx)).2.1) 0 I hI hb).1

theorem text_decode_sees_through_witness :
    (decodeWords true hostLE 32 (fun _ => 0)
        [(bytesOf "; comment\n  ", 5), (bytesOf " ", 7), (bytesOf "\t;\n", 9)].length 0
        (decoderOn (bytesOf "; comment\n  5 7\t;\n9\n"))).2
        = [(bytesOf "; comment\n  ", 5), (bytesOf " ", 7), (bytesOf "\t;\n", 9)].map
            (fun t => t.2)
      ∧ (decodeWords true hostLE 32 (fun _ => 0) 3 0
            (decoderOn (bytesOf "; comment\n  5 7 9\n"))).2 = [5, 7, 9]
      ∧ (decodeWords false hostLE 32 (fun _ => 0) 3 0
            (decoderOn (encodeVec false hostLE encoderNew [5, 7, 9]).OS.out)).2 = [5, 7, 9] :=
  text_decode_sees_through hostLE
    [(bytesOf "; comment\n  ", 5), (bytesOf " ", 7), (bytesOf "\t;\n", 9)] (bytesOf "\n")
    (fun _ => 0) (decoderOn (bytesOf "; comment\n  5 7\t;\n9\n")) (by decide)
    (by
      intro t ht
      simp only [List.mem_cons, List.mem_singleton, List.not_mem_nil, or_false] at ht
      rcases ht with rfl | rfl | rfl
      · exact ⟨Filler.comment (bytesOf " comment") _ (by decide)
          (Filler.space 32 _ (by decide) (Filler.space 32 _ (by decide) Filler.nil)),
          by decide, by decide⟩
      · exact ⟨Filler.space 32 _ (by decide) Filler.nil, by decide, by decide⟩
      · exact ⟨Filler.space 9 _ (by decide) (Filler.comment [] _ (by decide) Filler.nil),
          by decide, by decide⟩)
    (by intro c hc; cases hc; decide) (by decide)

/-- C8. Fixed-size sequence decode.  In binary mode, on a good stream holding
at least `V.size()` words, the vector `operator>>` overwrites `V[j]`, for every
`j` in increasing order, with `static_cast<T>` of the `j`-th word of the stream
(the word itself when `T` has at least 32 bits), consumes exactly `4 * V.size()`
bytes and nothing else of the decoder, and leaves the length of `V` as it was;
for the empty vector it consumes nothing. -/
theorem vector_decode_binary {Module Entry : Type} (h : Host) (bits : Nat)
    (junk : Nat → Nat) (I : SPIRVDecoder Module Entry) (V : List Nat)
    (hI : I.IS.good = true) (hlen : 4 * V.length ≤ I.IS.buf.length) :
    (decodeVec false h bits junk I V).2
        = (List.range V.length).map
            (fun j => castTo bits (bytesToWord h (I.IS.buf.drop (4 * j))))
      ∧ (32 ≤ bits → (decodeVec false h bits junk I V).2
          = (List.range V.length).map (fun j => bytesToWord h (I.IS.buf.drop (4 * j))))
      ∧ (decodeVec false h bits junk I V).1
          = { I with IS := { I.IS with buf := I.IS.buf.drop (4 * V.length) } }
      ∧ (decodeVec false h bits junk I V).2.length = V.length
      ∧ decodeVec false h bits junk I [] = (I, []) := by
  have hmain := decodeWords_binary h bits junk V.length 0 I hI hlen
  rw [decodeVec_eq, hmain]
  refine ⟨rfl, ?_, rfl, by simp, rfl⟩
  intro hbits
  apply List.map_congr_left
  intro j _
  exact castTo_wide bits _ hbits (bytesToWord_lt h _)

theorem vector_decode_binary_witness :
    (decodeVec false hostLE 32 (fun _ => 0) (decoderOn [5, 0, 3, 0, 7, 0, 0, 0, 9]) [1, 1]).2
        = (List.range [1, 1].length).map
            (fun j => castTo 32 (bytesToWord hostLE
              ((decoderOn [5, 0, 3, 0, 7, 0, 0, 0, 9]).IS.buf.drop (4 * j))))
      ∧ (32 ≤ 32 →
          (decodeVec false hostLE 32 (fun _ => 0) (decoderOn [5, 0, 3, 0, 7, 0, 0, 0, 9])
            [1, 1]).2
          = (List.range [1, 1].length).map (fun j => bytesToWord hostLE
              ((decoderOn [5, 0, 3, 0, 7, 0, 0, 0, 9]).IS.buf.drop (4 * j))))
      ∧ (decodeVec false hostLE 32 (fun _ => 0) (decoderOn [5, 0, 3, 0, 7, 0, 0, 0, 9]) [1, 1]).1
          = { decoderOn [5, 0, 3, 0, 7, 0, 0, 0, 9] with
              IS := { (decoderOn [5, 0, 3, 0, 7, 0, 0, 0, 9]).IS with
                buf := (decoderOn [5, 0, 3, 0, 7, 0, 0, 0, 9]).IS.buf.drop (4 * [1, 1].length) } }
      ∧ (decodeVec false hostLE 32 (fun _ => 0) (decoderOn [5, 0, 3, 0, 7, 0, 0, 0, 9])
          [1, 1]).2.length = [1, 1].length
      ∧ decodeVec false hostLE 32 (fun _ => 0) (decoderOn [5, 0, 3, 0, 7, 0, 0, 0, 9]) []
          = (decoderOn [5, 0, 3, 0, 7, 0, 0, 0, 9], []) :=
  vector_decode_binary hostLE 32 (fun _ => 0) (decoderOn [5, 0, 3, 0, 7, 0, 0, 0, 9]) [1, 1]
    (by decide) (by decide)

/-- C9 (counterexample). The claim fails in text mode: decoding a vector of
length 1 from the text written for `[5]` does not consume the whole output; the
space that ends the last token is left unread. -/
theorem text_vector_decode_leaves_space :
    (encodeVec true hostLE encoderNew [5]).OS.out = bytesOf "5 "
      ∧ (decodeVec true hostLE 32 (fun _ => 0)
          (decoderOn (encodeVec true hostLE encoderNew [5]).OS.out) [0]).1.IS.buf = [chSpace]
      ∧ (decodeVec true hostLE 32 (fun _ => 0)
          (decoderOn (encodeVec true hostLE encoderNew [5]).OS.out) [0]).1.IS.buf ≠ [] := by
  decide

/-- C9 (amended). Word-count symmetry of sequences across modes.  For every
vector `ws` of `n` 32-bit words the vector `operator<<` appends to a good output
stream exactly `4 * n` bytes in binary mode and exactly `n` decimal tokens, each
followed by one space, in text mode; decoding into a vector of length `n` from
either output, in the matching mode, reproduces `ws`; it consumes the whole
output in binary mode and, in text mode, all of it but the space that ends the
last token.  The three words `[header, 7, 9]` encode to 12 bytes in binary mode
and decode back to the same three values. -/
theorem vector_codec_symmetry {Module Entry : Type} (text : Bool) (h : Host)
    (ws V : List Nat) (O : SPIRVEncoder) (I : SPIRVDecoder Module Entry) (junk : Nat → Nat)
    (hws : ∀ w ∈ ws, IsWord w) (hO : O.OS.good = true) (hI : I.IS.good = true)
    (hV : V.length = ws.length) (hb : I.IS.buf = ws.flatMap (wordImage text h)) :
    (encodeVec text h O ws).OS.out = O.OS.out ++ ws.flatMap (wordImage text h)
      ∧ (ws.flatMap (wordImage false h)).length = 4 * ws.length
      ∧ ws.flatMap (wordImage true h) = ws.flatMap (fun w => OStream.decimal w ++ [chSpace])
      ∧ (decodeVec text h 32 junk I V).2 = ws
      ∧ (decodeVec text h 32 junk I V).1.IS.buf
          = (if text = true ∧ ws ≠ [] then [chSpace] else [])
      ∧ (∀ hh : Host, (encodeVec false hh encoderNew [196613, 7, 9]).OS.out.length = 12
          ∧ (decodeVec false hh 32 (fun _ => 0)
              (decoderOn (encodeVec false hh encoderNew [196613, 7, 9]).OS.out)
              [0, 0, 0]).2 = [196613, 7, 9]) := by
  have himg : wordImage true h = (fun w => OStream.decimal w ++ [chSpace]) := by
    funext w; simp [wordImage]
  refine ⟨?_, flatMap_binary_length h ws, by rw [himg], ?_, ?_, ?_⟩
  · rw [encodeVec_eq, foldl_encode text h ws O hO]
  · rw [decodeVec_eq, hV]
    cases text with
    | false =>
      have := decodeWords_binary_roundtrip h junk [] ws 0 I hws hI (by simpa using hb)
      rw [this]
    | true =>
      cases ws with
      | nil => rfl
      | cons w ws =>
        rw [flatMap_text_eq h ws w] at hb
        have hall : ∀ t ∈ ([], w) :: ws.map (fun v => ([chSpace], v)),
            Filler t.1 ∧ t.2 < 4294967296 := by
          intro t ht
          rcases List.mem_cons.1 ht with rfl | ht
          · exact ⟨Filler.nil, hws w (by simp)⟩
          · obtain ⟨v, hv, rfl⟩ := List.mem_map.1 ht
            exact ⟨Filler.space chSpace [] (by decide) Filler.nil, hws v (by simp [hv])⟩
        have hsep : ∀ t ∈ (([], w) :: ws.map (fun v => ([chSpace], v))).tail, t.1 ≠ [] := by
          intro t ht
          obtain ⟨v, _, rfl⟩ := List.mem_map.1 ht
          simp
        obtain ⟨r1, _, _⟩ := decodeWords_tokenText h junk [chSpace]
          (by intro c hc; cases hc; decide) _ hall hsep 0 I hI hb
        simp only [List.length_cons, List.length_map, List.map_cons, List.map_map] at r1
        rw [List.length_cons, r1]
        simp [Function.comp_def]
  · rw [decodeVec_eq, hV]
    cases text with
    | false =>
      have := decodeWords_binary_roundtrip h junk [] ws 0 I hws hI (by simpa using hb)
      rw [this]
      simp
    | true =>
      cases ws with
      | nil => simpa [decodeWords] using hb
      | cons w ws =>
        rw [flatMap_text_eq h ws w] at hb
        have hall : ∀ t ∈ ([], w) :: ws.map (fun v => ([chSpace], v)),
            Filler t.1 ∧ t.2 < 4294967296 := by
          intro t ht
          rcases List.mem_cons.1 ht with rfl | ht
          · exact ⟨Filler.nil, hws w (by simp)⟩
          · obtain ⟨v, hv, rfl⟩ := List.mem_map.1 ht
            exact ⟨Filler.space chSpace [] (by decide) Filler.nil, hws v (by simp [hv])⟩
        have hsep : ∀ t ∈ (([], w) :: ws.map (fun v => ([chSpace], v))).tail, t.1 ≠ [] := by
          intro t ht
          obtain ⟨v, _, rfl⟩ := List.mem_map.1 ht
          simp
        obtain ⟨_, r2, _⟩ := decodeWords_tokenText h junk [chSpace]
          (by intro c hc; cases hc; decide) _ hall hsep 0 I hI hb
        simp only [List.length_cons, List.length_map] at r2
        rw [List.length_cons, r2]
        simp
  · intro hh
    rcases hh with ⟨b, s⟩
    cases b <;> cases s <;> decide

theorem vector_codec_symmetry_witness :
    (encodeVec false hostLE encoderNew [196613, 7, 9]).OS.out
        = encoderNew.OS.out ++ [196613, 7, 9].flatMap (wordImage false hostLE)
      ∧ ([196613, 7, 9].flatMap (wordImage false hostLE)).length = 4 * [196613, 7, 9].length
      ∧ [196613, 7, 9].flatMap (wordImage true hostLE)
          = [196613, 7, 9].flatMap (fun w => OStream.decimal w ++ [chSpace])
      ∧ (decodeVec false hostLE 32 (fun _ => 0)
          (decoderOn [5, 0, 3, 0, 7, 0, 0, 0, 9, 0, 0, 0]) [0, 0, 0]).2 = [196613, 7, 9]
      ∧ (decodeVec false hostLE 32 (fun _ => 0)
          (decoderOn [5, 0, 3, 0, 7, 0, 0, 0, 9, 0, 0, 0]) [0, 0, 0]).1.IS.buf
          = (if false = true ∧ [196613, 7, 9] ≠ [] then [chSpace] else [])
      ∧ (∀ hh : Host, (encodeVec false hh encoderNew [196613, 7, 9]).OS.out.length = 12
          ∧ (decodeVec false hh 32 (fun _ => 0)
              (decoderOn (encodeVec false hh encoderNew [196613, 7, 9]).OS.out)
              [0, 0, 0]).2 = [196613, 7, 9]) :=
  vector_codec_symmetry false hostLE [196613, 7, 9] [0, 0, 0] encoderNew
    (decoderOn [5, 0, 3, 0, 7, 0, 0, 0, 9, 0, 0, 0]) (fun _ => 0)
    (by decide) (by decide) (by decide) (by decide) (by decide)

/-- C10. The optional field is sentinel-free.  When `V` holds no value,
`operator<<` leaves the encoder (and so the output) as it is and `operator>>`
leaves the decoder (and so the input) as it is and `V` empty.  When `V` holds a
value, `operator<<` does exactly what the generic `operator<<` does for the
contained value, and `operator>>` does exactly what the generic `operator>>`
does, the decoded value replacing the contained one. -/
theorem optional_sentinel_free {Module Entry : Type} (text : Bool) (h : Host)
    (bits junk v : Nat) (O : SPIRVEncoder) (I : SPIRVDecoder Module Entry) :
    encodeOpt text h O none = O
      ∧ decodeOpt text h bits junk I none = (I, none)
      ∧ encodeOpt text h O (some v) = encode text h O v
      ∧ (decodeOpt text h bits junk I (some v)).1 = (decode text h bits junk I).1
      ∧ (decodeOpt text h bits junk I (some v)).2 = some (decode text h bits junk I).2 :=
  ⟨rfl, rfl, rfl, rfl, rfl⟩

/-- C11. Entity-pointer round trip.  The pointer `operator<<` does exactly what
the generic `operator<<` does for the word `P->getId()`; the pointer
`operator>>` decodes exactly one id word with the generic `operator>>` and
returns the module's `getEntry` of it.  Hence, in both modes, when
`getEntry(P->getId())` is `P`, decoding what encoding `P` writes yields `P`. -/
theorem pointer_round_trip {Module Entry : Type} (getEntry : Module → Nat → Option Entry)
    (getId : Entry → Nat) (text : Bool) (h : Host) (junk : Nat) (O : SPIRVEncoder)
    (I : SPIRVDecoder Module Entry) (P : Entry) (rest : List Byte)
    (hid : IsWord (getId P)) (hreg : getEntry I.M (getId P) = some P)
    (hO : O.OS.good = true) (hI : I.IS.good = true)
    (hb : I.IS.buf = wordImage text h (getId P) ++ rest) :
    encodePtr getId text h O P = encode text h O (getId P)
      ∧ (encodePtr getId text h O P).OS.out = O.OS.out ++ wordImage text h (getId P)
      ∧ (decodePtr getEntry text h junk I).1 = (decode text h 32 junk I).1
      ∧ (decodePtr getEntry text h junk I).2 = getEntry I.M (decode text h 32 junk I).2
      ∧ (decodePtr getEntry text h junk I).2 = some P := by
  refine ⟨rfl, ?_, rfl, rfl, ?_⟩
  · unfold encodePtr
    rw [(encode_good text h O (getId P) hO).1]
  · unfold decodePtr
    rw [decode_wordImage text h (getId P) junk I rest hI hid hb]
    exact hreg

theorem pointer_round_trip_witness :
    encodePtr (fun _ => 1) true hostLE encoderNew "a" = encode true hostLE encoderNew 1
      ∧ (encodePtr (fun _ => 1) true hostLE encoderNew "a").OS.out
          = encoderNew.OS.out ++ wordImage true hostLE 1
      ∧ (decodePtr tableGetEntry true hostLE 0 (tableDecoderOn (bytesOf "1 ") [(1, "a")])).1
          = (decode true hostLE 32 0 (tableDecoderOn (bytesOf "1 ") [(1, "a")])).1
      ∧ (decodePtr tableGetEntry true hostLE 0 (tableDecoderOn (bytesOf "1 ") [(1, "a")])).2
          = tableGetEntry (tableDecoderOn (bytesOf "1 ") [(1, "a")]).M
              (decode true hostLE 32 0 (tableDecoderOn (bytesOf "1 ") [(1, "a")])).2
      ∧ (decodePtr tableGetEntry true hostLE 0 (tableDecoderOn (bytesOf "1 ") [(1, "a")])).2
          = some "a" :=
  pointer_round_trip tableGetEntry (fun _ => 1) true hostLE 0 encoderNew
    (tableDecoderOn (bytesOf "1 ") [(1, "a")]) "a" [] (by decide) (by decide) (by decide)
    (by decide) (by decide)

/-- C12 (counterexample). The claim fails on the code: with the module that
registers only id 1, decoding a pointer field from a stream whose next word
is 7 stores the null pointer into the pointer and raises nothing; the stream
is still good afterwards, in binary and in text mode. -/
theorem unresolved_pointer_decodes_to_null :
    (decodePtr tableGetEntry false hostLE 0 (tableDecoderOn [7, 0, 0, 0] [(1, "a")])).2 = none
      ∧ (decodePtr tableGetEntry false hostLE 0
          (tableDecoderOn [7, 0, 0, 0] [(1, "a")])).1.IS.good = true
      ∧ (decodePtr tableGetEntry true hostLE 0
          (tableDecoderOn (bytesOf "7 ") [(1, "a")])).2 = none
      ∧ (decodePtr tableGetEntry true hostLE 0
          (tableDecoderOn (bytesOf "7 ") [(1, "a")])).1.IS.good = true := by
  decide

/-- C12 (amended). Decoding a pointer field from a good stream whose next word
is `id` stores into the pointer exactly what the module's lookup returns for
`id`: when the lookup has no registered entry and returns the null pointer,
the null pointer is stored, and the operator raises no condition of its own,
the stream being still good afterwards. -/
theorem unresolved_pointer_stores_lookup {Module Entry : Type}
    (getEntry : Module → Nat → Option Entry) (text : Bool) (h : Host) (junk id : Nat)
    (I : SPIRVDecoder Module Entry) (rest : List Byte)
    (hid : IsWord id) (hnone : getEntry I.M id = none) (hI : I.IS.good = true)
    (hb : I.IS.buf = wordImage text h id ++ rest) :
    (decodePtr getEntry text h junk I).2 = getEntry I.M id
      ∧ (decodePtr getEntry text h junk I).2 = none
      ∧ (decodePtr getEntry text h junk I).1.IS.good = true := by
  have hd := decode_wordImage text h id junk I rest hI hid hb
  unfold decodePtr
  rw [hd]
  exact ⟨rfl, hnone, good_with_buf _ _ hI⟩

theorem unresolved_pointer_stores_lookup_witness :
    (decodePtr tableGetEntry false hostLE 0 (tableDecoderOn [7, 0, 0, 0, 9] [(1, "a")])).2
        = tableGetEntry (tableDecoderOn [7, 0, 0, 0, 9] [(1, "a")]).M 7
      ∧ (decodePtr tableGetEntry false hostLE 0
          (tableDecoderOn [7, 0, 0, 0, 9] [(1, "a")])).2 = none
      ∧ (decodePtr tableGetEntry false hostLE 0
          (tableDecoderOn [7, 0, 0, 0, 9] [(1, "a")])).1.IS.good = true :=
  unresolved_pointer_stores_lookup tableGetEntry false hostLE 0 7
    (tableDecoderOn [7, 0, 0, 0, 9] [(1, "a")]) [9] (by decide) (by decide) (by decide)
    (by decide)

/-- C13. The range field equals element-wise application.  On the range
`(V.begin(), V.end())` the range `operator>>` returns the same decoder and the
same final `V` as the vector `operator>>` on `V`, and the range `operator<<`
the same encoder as the vector `operator<<`; on an empty range
(`first == second`) nothing is consumed, changed or written. -/
theorem range_equals_vector {Module Entry : Type} (text : Bool) (h : Host) (bits : Nat)
    (junk : Nat → Nat) (I : SPIRVDecoder Module Entry) (O : SPIRVEncoder) (V : List Nat)
    (k : Nat) :
    decodeRange text h bits junk I V 0 V.length = decodeVec text h bits junk I V
      ∧ encodeRange text h O V 0 V.length = encodeVec text h O V
      ∧ decodeRange text h bits junk I V k k = (I, V)
      ∧ encodeRange text h O V k k = O := by
  refine ⟨?_, ?_, ?_, ?_⟩
  · unfold decodeRange decodeVec
    exact decodeRangeLoop_eq text h bits junk V.length V.length 0 I V (by omega)
  · unfold encodeRange encodeVec
    exact encodeRangeLoop_eq text h V V.length V.length 0 O (by omega)
  · unfold decodeRange
    rw [Nat.sub_self, decodeRangeLoop, if_neg (by simp)]
  · unfold encodeRange
    rw [Nat.sub_self, encodeRangeLoop, if_neg (by simp)]

/-- C14. Truncating and widening conversion in binary mode.  Decoding the word
`W` into a 16-bit unsigned field yields `W mod 2^16`, into an 8-bit one
`W mod 2^8`, into a 64-bit one `W` itself, each time consuming exactly the 4
bytes of `W`; encoding an unsigned `V` of any width, 64 bits included, writes
the 4 bytes of the word `V mod 2^32`, so decoding them into a 64-bit field
gives back `V` if and only if `V < 2^32`. -/
theorem binary_cast_conversions {Module Entry : Type} (h : Host) (W V junk : Nat)
    (O : SPIRVEncoder) (I I2 : SPIRVDecoder Module Entry) (rest rest2 : List Byte)
    (hW : IsWord W) (hO : O.OS.good = true)
    (hI : I.IS.good = true) (hb : I.IS.buf = wordToBytes h W ++ rest)
    (hI2 : I2.IS.good = true)
    (hb2 : I2.IS.buf = (encode false h encoderNew V).OS.out ++ rest2) :
    decode false h 16 junk I = ({ I with IS := { I.IS with buf := rest } }, W % 2 ^ 16)
      ∧ decode false h 8 junk I = ({ I with IS := { I.IS with buf := rest } }, W % 2 ^ 8)
      ∧ decode false h 64 junk I = ({ I with IS := { I.IS with buf := rest } }, W)
      ∧ (wordToBytes h W).length = 4
      ∧ (encode false h O V).OS.out = O.OS.out ++ wordToBytes h (V % 2 ^ 32)
      ∧ decode false h 64 junk I2
          = ({ I2 with IS := { I2.IS with buf := rest2 } }, V % 2 ^ 32)
      ∧ ((decode false h 64 junk I2).2 = V ↔ V < 2 ^ 32) := by
  have hm : V % 2 ^ 32 < 4294967296 := Nat.mod_lt _ (by decide)
  have henc : ∀ O' : SPIRVEncoder, O'.OS.good = true →
      (encode false h O' V).OS.out = O'.OS.out ++ wordToBytes h (V % 2 ^ 32) := by
    intro O' hO'
    rw [(encode_good false h O' V hO').1]
    simp [wordImage, castTo]
  have hb2' : I2.IS.buf = wordToBytes h (V % 2 ^ 32) ++ rest2 := by
    rw [hb2, henc encoderNew (by decide)]
    rfl
  have h64 : decode false h 64 junk I2
      = ({ I2 with IS := { I2.IS with buf := rest2 } }, V % 2 ^ 32) := by
    rw [decodeBinary_cast h 64 (V % 2 ^ 32) junk I2 rest2 hI2 hm hb2',
      castTo_wide 64 _ (by decide) hm]
  refine ⟨?_, ?_, ?_, wordToBytes_length h W, henc O hO, h64, ?_⟩
  · rw [decodeBinary_cast h 16 W junk I rest hI hW hb]; rfl
  · rw [decodeBinary_cast h 8 W junk I rest hI hW hb]; rfl
  · rw [decodeBinary_cast h 64 W junk I rest hI hW hb, castTo_wide 64 W (by decide) hW]
  · rw [h64]
    constructor
    · intro e
      have : V % 2 ^ 32 = V := e
      rw [← this]
      exact Nat.mod_lt _ (by decide)
    · intro hlt
      exact Nat.mod_eq_of_lt hlt

theorem binary_cast_conversions_witness :
    decode false hostLE 16 0 (decoderOn [1, 2, 3, 4, 9])
        = ({ decoderOn [1, 2, 3, 4, 9] with
              IS := { (decoderOn [1, 2, 3, 4, 9]).IS with buf := [9] } }, 67305985 % 2 ^ 16)
      ∧ decode false hostLE 8 0 (decoderOn [1, 2, 3, 4, 9])
        = ({ decoderOn [1, 2, 3, 4, 9] with
              IS := { (decoderOn [1, 2, 3, 4, 9]).IS with buf := [9] } }, 67305985 % 2 ^ 8)
      ∧ decode false hostLE 64 0 (decoderOn [1, 2, 3, 4, 9])
        = ({ decoderOn [1, 2, 3, 4, 9] with
              IS := { (decoderOn [1, 2, 3, 4, 9]).IS with buf := [9] } }, 67305985)
      ∧ (wordToBytes hostLE 67305985).length = 4
      ∧ (encode false hostLE encoderNew 4294967301).OS.out
          = encoderNew.OS.out ++ wordToBytes hostLE (4294967301 % 2 ^ 32)
      ∧ decode false hostLE 64 0 (decoderOn [5, 0, 0, 0])
          = ({ decoderOn [5, 0, 0, 0] with
                IS := { (decoderOn [5, 0, 0, 0]).IS with buf := [] } }, 4294967301 % 2 ^ 32)
      ∧ ((decode false hostLE 64 0 (decoderOn [5, 0, 0, 0])).2 = 4294967301
          ↔ 4294967301 < 2 ^ 32) :=
  binary_cast_conversions hostLE 67305985 4294967301 0 encoderNew
    (decoderOn [1, 2, 3, 4, 9]) (decoderOn [5, 0, 0, 0]) [9] []
    (by decide) (by decide) (by decide) (by decide) (by decide) (by decide)

/-- C15. Encoding is a homomorphism over concatenation.  In each mode the
vector `operator<<` on `xs ++ ys` does what it does on `xs` and then on `ys`;
on a good output stream what it writes for `xs ++ ys` is what it writes for
`xs` followed by what it writes for `ys`, and what it writes for a vector is
the concatenation, in index order, of what the generic `operator<<` writes
for each element. -/
theorem encode_vector_append (text : Bool) (h : Host) (O : SPIRVEncoder) (xs ys : List Nat)
    (v : Nat) (hO : O.OS.good = true) :
    encodeVec text h O (xs ++ ys) = encodeVec text h (encodeVec text h O xs) ys
      ∧ (encode text h O v).OS.out = O.OS.out ++ wordImage text h v
      ∧ (encodeVec text h O xs).OS.out = O.OS.out ++ xs.flatMap (wordImage text h)
      ∧ (encodeVec text h O (xs ++ ys)).OS.out
          = O.OS.out ++ (xs.flatMap (wordImage text h) ++ ys.flatMap (wordImage text h)) := by
  refine ⟨?_, ?_, ?_, ?_⟩
  · rw [encodeVec_eq, encodeVec_eq, encodeVec_eq, List.foldl_append]
  · rw [(encode_good text h O v hO).1]
  · rw [encodeVec_eq, foldl_encode text h xs O hO]
  · rw [encodeVec_eq, foldl_encode text h (xs ++ ys) O hO, List.flatMap_append]

theorem encode_vector_append_witness :
    encodeVec true hostLE encoderNew ([5, 7] ++ [9])
        = encodeVec true hostLE (encodeVec true hostLE encoderNew [5, 7]) [9]
      ∧ (encode true hostLE encoderNew 5).OS.out = encoderNew.OS.out ++ wordImage true hostLE 5
      ∧ (encodeVec true hostLE encoderNew [5, 7]).OS.out
          = encoderNew.OS.out ++ [5, 7].flatMap (wordImage true hostLE)
      ∧ (encodeVec true hostLE encoderNew ([5, 7] ++ [9])).OS.out
          = encoderNew.OS.out
              ++ ([5, 7].flatMap (wordImage true hostLE) ++ [9].flatMap (wordImage true hostLE)) :=
  encode_vector_append true hostLE encoderNew [5, 7] [9] 5 (by decide)

/-- C16. Field decoding has no effect on the decoder bookkeeping.  After the
generic decode of a scalar, a pointer, a vector, an optional or a range, the
decoder has the same module, `WordCount`, `OpCode` and `Scope` as before. -/
theorem decode_preserves_bookkeeping {Module Entry : Type}
    (getEntry : Module → Nat → Option Entry) (text : Bool) (h : Host) (bits junk : Nat)
    (junks : Nat → Nat) (I : SPIRVDecoder Module Entry) (V : List Nat) (Vo : Option Nat)
    (first second : Nat) :
    SameBookkeeping I (decode text h bits junk I).1
      ∧ SameBookkeeping I (decodePtr getEntry text h junk I).1
      ∧ SameBookkeeping I (decodeVec text h bits junks I V).1
      ∧ SameBookkeeping I (decodeOpt text h bits junk I Vo).1
      ∧ SameBookkeeping I (decodeRange text h bits junks I V first second).1 := by
  refine ⟨decode_sameBookkeeping text h bits junk I, decode_sameBookkeeping text h 32 junk I,
    decodeVecLoop_sameBookkeeping text h bits junks _ _ I V, ?_,
    decodeRangeLoop_sameBookkeeping text h bits junks _ _ _ I V⟩
  cases Vo with
  | none => exact sameBookkeeping_refl I
  | some v => exact decode_sameBookkeeping text h bits junk I

/-- C17. A decoder constructed from a stream and a module starts idle: its
`WordCount` is 0, its `OpCode` is `OpNop`, its `Scope` is null, and it is
bound to that stream and that module. -/
theorem decoder_starts_idle {Module Entry : Type} (InputStream : IStream) (M : Module) :
    (SPIRVDecoder.new InputStream M : SPIRVDecoder Module Entry).WordCount = 0
      ∧ (SPIRVDecoder.new InputStream M : SPIRVDecoder Module Entry).OpCode = OpNop
      ∧ (SPIRVDecoder.new InputStream M : SPIRVDecoder Module Entry).Scope = none
      ∧ (SPIRVDecoder.new InputStream M : SPIRVDecoder Module Entry).IS = InputStream
      ∧ (SPIRVDecoder.new InputStream M : SPIRVDecoder Module Entry).M = M :=
  ⟨rfl, rfl, rfl, rfl, rfl⟩

end SPIRV
